import Mathlib

/-!
# Binary-heap priority queue of the path planner (`lib/priority_queue.hpp`)

A shallow embedding of the heap helpers (`parent`, `left_child`, `right_child`,
`heapify`, `build_heap`, `sift_up`) and of the class `PriorityQueue`, followed
by the properties established about them.

Conventions of the embedding.

* A `std::vector<Value>` is a `List α`.  An iterator into the vector is the
  offset from `begin()`, a `Nat`; `first` is therefore always offset `0` and is
  not passed around, `last` is the offset of the end of the range.
* `Value` is default constructible in the source (`resize` value-initialises the
  new slot), hence `[Inhabited α]`.  Dereferencing is `deref`; reading a
  position outside the vector is undefined behaviour in the source and yields
  `default` here.  Theorems state the bounds that keep the reads they speak of
  inside the vector.
* `operator==` of `Value` is the `BEq α` instance, the comparator object is a
  function `α → α → Bool`.
* A member function that mutates the queue returns the new queue; `pop`, which
  can throw, returns the outcome together with the queue it leaves behind.
* A `Value const&` parameter is a value where the member function reads it only
  before it writes `_seq` (`remove`, `contains`).  `push` and `substitute` read
  `new_val` after `_seq` has been resized or rearranged: their by-value
  definitions are the calls with an argument outside the stored sequence, and
  `push_ref`, `substitute_ref` are the calls with the binding of the reference
  (outside, or the front element that `top()` returns) made explicit.
-/

namespace search

variable {α : Type}

/-! ## Vector primitives -/

/-- Dereference of the iterator at offset `i`, written `*it` in the source. -/
def deref [Inhabited α] (a : List α) (i : Nat) : α := a.getD i default

/-- The call `std::swap(*i, *j)` on two positions of the same vector. -/
def swap [Inhabited α] (a : List α) (i j : Nat) : List α :=
  (a.set i (deref a j)).set j (deref a i)

/-- The call `std::vector::resize(n)`: truncate, or pad with value-initialised elements. -/
def resize [Inhabited α] (a : List α) (n : Nat) : List α :=
  a.take n ++ List.replicate (n - a.length) default

/-! ## Index helpers -/

/-- Source `parent(first, it)`: `first + (it - first - 1) / 2`.  The source divides a signed
difference, truncating toward zero, so the root is its own parent; truncated subtraction on
`Nat` gives the same value. -/
def parent (it : Nat) : Nat := (it - 1) / 2

/-- Source `left_child(first, last, it)`. -/
def left_child (last it : Nat) : Nat :=
  let size := last
  let offset := 2 * it + 1
  if offset > size then last else offset

/-- Source `right_child(first, last, it)`. -/
def right_child (last it : Nat) : Nat :=
  let left := left_child last it
  if left ≠ last then left + 1 else last

/-! ## Sift-down and sift-up -/

/-- The selection made by one round of the loop of `heapify`: the position among `curr`
and its children that the comparator ranks first. -/
def max_min [Inhabited α] (compare : α → α → Bool) (a : List α) (last curr : Nat) : Nat :=
  let left := left_child last curr
  let right := right_child last curr
  let max_min := if left ≠ last ∧ compare (deref a left) (deref a curr) then left else curr
  if right ≠ last ∧ compare (deref a right) (deref a max_min) then right else max_min

/-- Source `heapify(first, last, curr, compare)`: the `while (true)` loop, one recursive call
per round. -/
@[semireducible]
def heapify [Inhabited α] (compare : α → α → Bool) (a : List α) (last curr : Nat) : List α :=
  let m := max_min compare a last curr
  if curr ≠ m then
    heapify compare (swap a m curr) last m
  else
    a
termination_by last - curr
decreasing_by
  have h : curr ≠ max_min compare a last curr := by assumption
  unfold max_min right_child left_child at *
  simp only at *
  split_ifs at * <;> omega

/-- The lambda `is_needed` of `sift_up`: `c != first && !compare(*p(), *c)`. -/
def is_needed [Inhabited α] (compare : α → α → Bool) (a : List α) (c : Nat) : Bool :=
  c ≠ 0 && !compare (deref a (parent c)) (deref a c)

/-- The `for` loop of `sift_up`: `for (; is_needed(); c = p()) swap(*p(), *c);`. -/
@[semireducible]
def sift_up_loop [Inhabited α] (compare : α → α → Bool) (a : List α) (c : Nat) : List α :=
  if is_needed compare a c = true then
    sift_up_loop compare (swap a (parent c) c) (parent c)
  else
    a
termination_by c
decreasing_by
  have h : is_needed compare a c = true := by assumption
  unfold is_needed at h
  unfold parent
  simp at h
  omega

/-- Source `sift_up(first, curr, compare)`: the returned flag and the vector afterwards. -/
def sift_up [Inhabited α] (compare : α → α → Bool) (a : List α) (curr : Nat) : Bool × List α :=
  if !is_needed compare a curr then (false, a)
  else (true, sift_up_loop compare a curr)

/-! ## The loops with their positions recorded -/

/-- The loop of `heapify` once more, recording the position held by `curr` at the start of every
round: the first component is the vector that `heapify` leaves, the second lists the positions
in the order they were taken.  Every round but the last performs one swap. -/
@[semireducible]
def heapify_run [Inhabited α] (compare : α → α → Bool) (a : List α) (last curr : Nat) :
    List α × List Nat :=
  let m := max_min compare a last curr
  if curr ≠ m then
    ((heapify_run compare (swap a m curr) last m).1,
      curr :: (heapify_run compare (swap a m curr) last m).2)
  else
    (a, [curr])
termination_by last - curr
decreasing_by
  all_goals
    have h : curr ≠ max_min compare a last curr := by assumption
    unfold max_min right_child left_child at *
    simp only at *
    split_ifs at * <;> omega

/-- Positions that one round of `heapify` at `curr` can dereference: `curr` itself and each
child that is not the end of the range. -/
def heapify_touched (last curr : Nat) : List Nat :=
  curr :: ((if left_child last curr ≠ last then [left_child last curr] else []) ++
    (if right_child last curr ≠ last then [right_child last curr] else []))

/-- The loop of `sift_up` once more, recording the position held by `c` at every evaluation of
`is_needed`: the first component is the vector that the loop leaves, the second lists the
positions in the order they were taken.  Every entry but the last stands for one swap. -/
@[semireducible]
def sift_up_run [Inhabited α] (compare : α → α → Bool) (a : List α) (c : Nat) :
    List α × List Nat :=
  if is_needed compare a c = true then
    ((sift_up_run compare (swap a (parent c) c) (parent c)).1,
      c :: (sift_up_run compare (swap a (parent c) c) (parent c)).2)
  else
    (a, [c])
termination_by c
decreasing_by
  all_goals
    have h : is_needed compare a c = true := by assumption
    unfold is_needed at h
    unfold parent
    simp at h
    omega

/-- Positions that one evaluation of `is_needed` at `c`, and the swap that may follow, can
dereference: none at the root, `c` and its parent otherwise. -/
def sift_up_touched (c : Nat) : List Nat :=
  if c ≠ 0 then [parent c, c] else []

/-! ## Heap property -/

/-- Heap property of the range `[0, n)` of `a`: no element ranks before its parent. -/
def is_heap [Inhabited α] (compare : α → α → Bool) (a : List α) (n : Nat) : Prop :=
  ∀ i, i < n → 0 < i → compare (deref a i) (deref a (parent i)) = false

/-- Heap property of `[0, n)` everywhere except between position `k` and its children, whose
values are nevertheless not ranked before the parent of `k`. -/
def heap_except [Inhabited α] (compare : α → α → Bool) (a : List α) (n k : Nat) : Prop :=
  (∀ i, i < n → 0 < i → parent i ≠ k → compare (deref a i) (deref a (parent i)) = false) ∧
  (0 < k → ∀ c, c < n → 0 < c → parent c = k →
    compare (deref a c) (deref a (parent k)) = false)

/-- State of the loop of `push` at position `curr` with pending value `v`: the range `[0, n)`
is a heap away from `curr`, the children of `curr` rank neither before `v` nor before the
parent of `curr`. -/
def push_inv [Inhabited α] (compare : α → α → Bool) (v : α) (a : List α) (n curr : Nat) : Prop :=
  (∀ i, i < n → 0 < i → i ≠ curr → parent i ≠ curr →
    compare (deref a i) (deref a (parent i)) = false) ∧
  (∀ i, i < n → 0 < i → parent i = curr → compare (deref a i) v = false) ∧
  (0 < curr → ∀ i, i < n → 0 < i → parent i = curr →
    compare (deref a i) (deref a (parent curr)) = false)

/-- Position `i` lies in the subtree rooted at `r`: it is `r`, or its parent lies there. -/
inductive in_subtree (r : Nat) : Nat → Prop where
  | root : in_subtree r r
  | child {i : Nat} : 0 < i → in_subtree r (parent i) → in_subtree r i

/-- Heap property of the subtree rooted at `r`, as far as it lies in `[0, n)`: no element below
`r` ranks before its parent. -/
def subtree_heap [Inhabited α] (compare : α → α → Bool) (a : List α) (n r : Nat) : Prop :=
  ∀ i, i < n → in_subtree r i → i ≠ r → compare (deref a i) (deref a (parent i)) = false

/-- Heap property of the subtree rooted at `r` everywhere except between position `k` and its
children, whose values are nevertheless not ranked before the parent of `k` when `k` lies
below `r`. -/
def subtree_except [Inhabited α] (compare : α → α → Bool) (a : List α) (n r k : Nat) : Prop :=
  (∀ i, i < n → in_subtree r i → i ≠ r → parent i ≠ k →
    compare (deref a i) (deref a (parent i)) = false) ∧
  (k ≠ r → ∀ c, c < n → 0 < c → parent c = k →
    compare (deref a c) (deref a (parent k)) = false)

/-- Heap property of `[0, n)` between every position from `k` on and its children. -/
def heap_from [Inhabited α] (compare : α → α → Bool) (a : List α) (n k : Nat) : Prop :=
  ∀ i, i < n → 0 < i → k ≤ parent i → compare (deref a i) (deref a (parent i)) = false

/-- State of the loop of `sift_up` at position `c`: the range `[0, n)` is a heap except
possibly between `c` and its parent, and the children of `c` are not ranked before the parent
of `c`. -/
def sift_inv [Inhabited α] (compare : α → α → Bool) (a : List α) (n c : Nat) : Prop :=
  (∀ i, i < n → 0 < i → i ≠ c → compare (deref a i) (deref a (parent i)) = false) ∧
  (0 < c → ∀ i, i < n → 0 < i → parent i = c →
    compare (deref a i) (deref a (parent c)) = false)

/-! ## Building a heap -/

/-- Source `left_child(first, last, it)` for an iterator that may lie before `first`: offsets
are signed, as the iterator differences of the source are. -/
def left_child_at (last : Nat) (it : Int) : Int :=
  let size : Int := last
  let offset : Int := 2 * it + 1
  if offset > size then last else offset

/-- Source `build_heap`: the signed offset `size / 2 - 1` from `first` at which the loop
starts. -/
def build_heap_start (last : Nat) : Int := (last : Int) / 2 - 1

/-- The loop of `build_heap` from a position `curr` at or after `first`: call `heapify` at
`curr`, return when `curr == first`, decrement `curr` otherwise. -/
def build_heap_loop [Inhabited α] (compare : α → α → Bool) (last : Nat) :
    Nat → List α → List α
  | 0, a => heapify compare a last 0
  | curr + 1, a => build_heap_loop compare last curr (heapify compare a last (curr + 1))

/-- Source `build_heap(first, last, compare)`.  The outcome `none` stands for undefined
behaviour: when the loop starts before `first`, the first call of `heapify` computes a left
child that lies before `first` and is not `last`, so it dereferences that position and `curr`,
both outside the range; the counter is only ever decremented and never meets `first`. -/
def build_heap [Inhabited α] (compare : α → α → Bool) (a : List α) (last : Nat) :
    Option (List α) :=
  if build_heap_start last < 0 then none
  else some (build_heap_loop compare last (build_heap_start last).toNat a)

/-! ## The class `PriorityQueue` -/

/-- How a caller binds a `Value const&` parameter of a member function: to an object outside
the stored sequence, whose value is given, or to the front element of the stored sequence, the
one reference to a stored element that the public interface hands out (`top()`). -/
inductive Binding (α : Type) where
  | outside : α → Binding α
  | front : Binding α

/-- The value read through a bound reference while the stored sequence is `a`. -/
def Binding.read [Inhabited α] : Binding α → List α → α
  | Binding.outside v, _ => v
  | Binding.front, a => deref a 0

/-- Whether a bound reference can still be read after `resize(n + 1)` on a vector of `n`
elements with the given capacity: always when it is bound outside the vector; when it is bound
to the front element, only if there is a front element and the vector is not reallocated. -/
def Binding.readable : Binding α → Nat → Nat → Bool
  | Binding.outside _, _, _ => true
  | Binding.front, n, capacity => decide (0 < n) && decide (n + 1 ≤ capacity)

/-- The exception thrown by `pop` on an empty queue. -/
inductive Exception where
  | underflow_error : String → Exception
  deriving DecidableEq, Repr

/-- Data members of `PriorityQueue<Value, CompareFunc>`. -/
structure PriorityQueue (α : Type) where
  _seq : List α
  _compare : α → α → Bool

namespace PriorityQueue

/-- Constructor `PriorityQueue(CompareFunc c)`: empty sequence. -/
def mk_empty (c : α → α → Bool) : PriorityQueue α := ⟨[], c⟩

/-- Source constructors `PriorityQueue(initializer_list, CompareFunc)` and
`PriorityQueue(Iterator, Iterator, CompareFunc)`: copy the values, then
`if (!empty()) build_heap(begin, end, compare)`. -/
def of_list [Inhabited α] (list : List α) (c : α → α → Bool) : Option (PriorityQueue α) :=
  if !list.isEmpty then
    (build_heap c list list.length).map (fun s => PriorityQueue.mk s c)
  else
    some (PriorityQueue.mk list c)

/-- Source `top()`: `_seq.front()`, defined only on a non-empty queue. -/
def top (q : PriorityQueue α) : Option α := q._seq.head?

/-- Source `size()`. -/
def size (q : PriorityQueue α) : Nat := q._seq.length

/-- Source `empty()`. -/
def empty (q : PriorityQueue α) : Bool := q._seq.isEmpty

/-- The call `std::find(begin, end, value)`: offset of the first element with
`*it == value`, the end offset when there is none. -/
def find [BEq α] (a : List α) (value : α) : Nat := a.findIdx (fun x => x == value)

/-- The call `std::find_if(begin, end, pred)`. -/
def find_if (a : List α) (pred : α → Bool) : Nat := a.findIdx pred

/-- Source `contains(value)`. -/
def contains [BEq α] (q : PriorityQueue α) (value : α) : Bool :=
  q._seq.length != find q._seq value

/-- Source `any(predicate)`. -/
def any (q : PriorityQueue α) (predicate : α → Bool) : Bool := q._seq.any predicate

/-- The `for` loop of `push`: shift parents down while `new_val` ranks before them; returns the
vector and the position where the loop stopped. -/
@[semireducible]
def push_loop [Inhabited α] (compare : α → α → Bool) (new_val : α) (a : List α) (curr : Nat) :
    List α × Nat :=
  if curr > 0 ∧ compare new_val (deref a (parent curr)) = true then
    push_loop compare new_val (a.set curr (deref a (parent curr))) (parent curr)
  else
    (a, curr)
termination_by curr
decreasing_by
  unfold parent
  omega

/-- Source `push(new_val)` for an argument that is not a reference to a stored element (a
temporary, a local, an element of another container): the value read through `new_val` is then
the same at every read.  The call with the binding of the reference made explicit is
`push_ref`. -/
def push [Inhabited α] (q : PriorityQueue α) (new_val : α) : PriorityQueue α :=
  let s := resize q._seq (q.size + 1)
  let r := push_loop q._compare new_val s (s.length - 1)
  { q with _seq := r.1.set r.2 new_val }

/-- The `for` loop of `push` with `new_val` read through its reference at every test, as the
source does: `_compare(new_val, *parent(_seq.begin(), curr))`. -/
@[semireducible]
def push_loop_ref [Inhabited α] (compare : α → α → Bool) (new_val : Binding α) (a : List α)
    (curr : Nat) : List α × Nat :=
  if curr > 0 ∧ compare (new_val.read a) (deref a (parent curr)) = true then
    push_loop_ref compare new_val (a.set curr (deref a (parent curr))) (parent curr)
  else
    (a, curr)
termination_by curr
decreasing_by
  unfold parent
  omega

/-- Source `push(Value const& new_val)` with the binding of `new_val` and the capacity of `_seq`
at the call made explicit.  `_seq.resize(size() + 1)` runs before `new_val` is read for the
first time; the loop and the final `*curr = new_val` read it through the reference.  The
outcome `none` stands for undefined behaviour: the reference is bound to the front element and
there is no such element, or `resize` has to reallocate (`size() == capacity()`), which
invalidates the reference that is read afterwards. -/
def push_ref [Inhabited α] (q : PriorityQueue α) (new_val : Binding α) (capacity : Nat) :
    Option (PriorityQueue α) :=
  if new_val.readable q.size capacity = true then
    let s := resize q._seq (q.size + 1)
    let r := push_loop_ref q._compare new_val s (s.length - 1)
    some { q with _seq := r.1.set r.2 (new_val.read r.1) }
  else
    none

/-- Source `pop()`: the thrown exception or the popped value, and the queue afterwards. -/
def pop [Inhabited α] (q : PriorityQueue α) : Except Exception α × PriorityQueue α :=
  if q.empty then
    (Except.error (Exception.underflow_error "underflow."), q)
  else
    let popped := deref q._seq 0
    let s1 := q._seq.set 0 (deref q._seq (q._seq.length - 1))
    let s2 := resize s1 (s1.length - 1)
    (Except.ok popped, { q with _seq := heapify q._compare s2 s2.length 0 })

/-- Source private `remove(Iterator at)`. -/
def remove_at [Inhabited α] (q : PriorityQueue α) (pos : Nat) : PriorityQueue α :=
  let s1 := swap q._seq pos (q._seq.length - 1)
  let r := sift_up q._compare s1 pos
  let s2 := if !r.1 then heapify q._compare r.2 (r.2.length - 1) pos else r.2
  { q with _seq := resize s2 (s2.length - 1) }

/-- Source `remove(Value const& item)`. -/
def remove [Inhabited α] [BEq α] (q : PriorityQueue α) (item : α) : PriorityQueue α :=
  let it := find q._seq item
  if q._seq.length ≠ it then q.remove_at it else q

/-- Source `substitute(old_value, new_value)` for a `new_value` that is not a reference to a
stored element.  The call with the binding of `new_value` made explicit is `substitute_ref`. -/
def substitute [Inhabited α] [BEq α] (q : PriorityQueue α) (old_value new_value : α) :
    PriorityQueue α :=
  (q.remove old_value).push new_value

/-- Source `substitute(Value const& old_value, Value const& new_value)` with the binding of
`new_value` and the capacity of `_seq` at the call made explicit.  `old_value` is read only by
`std::find`, before anything is written, so its value at the call stands for it.  `new_value`
is handed on to `push` as the same reference, after `remove` has rearranged and possibly
shortened `_seq`; shortening never reallocates, so the capacity is still the one at the
call. -/
def substitute_ref [Inhabited α] [BEq α] (q : PriorityQueue α) (old_value : α)
    (new_value : Binding α) (capacity : Nat) : Option (PriorityQueue α) :=
  (q.remove old_value).push_ref new_value capacity

/-- Source `update_with_if(new_value, predicate)` for a `new_value` that is not a reference to
a stored element; `*iterator` is read by `substitute` only before anything is written. -/
def update_with_if [Inhabited α] [BEq α] (q : PriorityQueue α) (new_value : α)
    (predicate : α → Bool) : PriorityQueue α :=
  let iterator := find_if q._seq (fun v => predicate v)
  if iterator ≠ q._seq.length ∧ q._compare new_value (deref q._seq iterator) = true then
    q.substitute (deref q._seq iterator) new_value
  else
    q

/-- Source `reset()`. -/
def reset (q : PriorityQueue α) : PriorityQueue α := { q with _seq := [] }

/-- Source `reset(CompareFunc&& c)`. -/
def reset_with (q : PriorityQueue α) (c : α → α → Bool) : PriorityQueue α :=
  ({ q with _compare := c } : PriorityQueue α).reset

/-! ## Vocabulary of the properties about queues -/

/-- Heap property of the stored sequence of a queue under its own comparator. -/
def heap_valid [Inhabited α] (q : PriorityQueue α) : Prop :=
  is_heap q._compare q._seq q._seq.length

/-- Push the values of a list one by one, first element first. -/
def push_all [Inhabited α] (q : PriorityQueue α) (l : List α) : PriorityQueue α :=
  l.foldl push q

/-- Call `pop` `n` times in a row, collecting the popped values in order; the first exception,
if any, ends the run and is the outcome. -/
def pop_n [Inhabited α] : Nat → PriorityQueue α → Except Exception (List α) × PriorityQueue α
  | 0, q => (Except.ok [], q)
  | n + 1, q =>
    match q.pop with
    | (Except.error e, q1) => (Except.error e, q1)
    | (Except.ok v, q1) =>
      match pop_n n q1 with
      | (Except.error e, q2) => (Except.error e, q2)
      | (Except.ok vs, q2) => (Except.ok (v :: vs), q2)

end PriorityQueue

/-- A comparator is a strict weak order: irreflexive, transitive, and with a transitive
incomparability relation. -/
structure StrictWeakOrder (compare : α → α → Bool) : Prop where
  irrefl : ∀ a, compare a a = false
  trans : ∀ a b c, compare a b = true → compare b c = true → compare a c = true
  incomp_trans : ∀ a b c, compare a b = false → compare b a = false →
    compare b c = false → compare c b = false → compare a c = false ∧ compare c a = false

/-- Queues that can be reached from an empty queue by the mutating member functions, every
comparator installed along the way being a strict weak order. -/
inductive Reachable [Inhabited α] [BEq α] : PriorityQueue α → Prop where
  | mk_empty (c : α → α → Bool) : StrictWeakOrder c → Reachable (PriorityQueue.mk_empty c)
  | push (q : PriorityQueue α) (v : α) : Reachable q → Reachable (q.push v)
  | pop (q : PriorityQueue α) : Reachable q → Reachable q.pop.2
  | remove (q : PriorityQueue α) (v : α) : Reachable q → Reachable (q.remove v)
  | substitute (q : PriorityQueue α) (old_value new_value : α) :
      Reachable q → Reachable (q.substitute old_value new_value)
  | update_with_if (q : PriorityQueue α) (new_value : α) (predicate : α → Bool) :
      Reachable q → Reachable (q.update_with_if new_value predicate)
  | reset (q : PriorityQueue α) : Reachable q → Reachable q.reset
  | reset_with (q : PriorityQueue α) (c : α → α → Bool) :
      StrictWeakOrder c → Reachable q → Reachable (q.reset_with c)

/-! ## Comparators of the worked examples -/

/-- Order of the natural numbers as a comparator object. -/
def nat_lt (a b : Nat) : Bool := decide (a < b)

/-- Comparator on pairs that looks at the first component only: the second component tells
apart values of equal rank. -/
def by_fst (a b : Nat × Nat) : Bool := decide (a.1 < b.1)

/-! ## Cell states and keys of the planner -/

/-- Modelled from the spec: the type `Coordinate`, which is not part of the available sources;
two signed integers, equality componentwise. -/
structure Coordinate where
  x : Int
  y : Int
  deriving DecidableEq, Repr

/-- Modelled from the spec: the constant `infinity()`, not part of the available sources; the
largest 32-bit signed integer. -/
def infinity : Int := 2147483647

/-- Modelled from the spec: the cell state `LpState`, not part of the available sources; fields
`coordinate`, `g`, `r`, `is_blocked`. -/
structure LpState where
  coordinate : Coordinate
  g : Int
  r : Int
  is_blocked : Bool
  deriving DecidableEq, Repr

/-- Modelled from the spec: equality of two cell states, not part of the available sources; it
compares coordinate, `g` and `r`, not `is_blocked`. -/
def LpState.beq (a b : LpState) : Bool :=
  decide (a.coordinate = b.coordinate) && decide (a.g = b.g) && decide (a.r = b.r)

instance : BEq LpState := ⟨LpState.beq⟩

/-- Modelled from the spec: a value-initialised cell state, not part of the available sources
and not described by the spec; an unreached, unblocked cell at the origin is taken.  It only ever
fills the slot that `push` overwrites. -/
instance : Inhabited LpState := ⟨⟨⟨0, 0⟩, infinity, infinity, false⟩⟩

/-- Modelled from the spec: addition on costs, not part of the available sources; any addition
involving `infinity` saturates to `infinity`. -/
def sat_add (a b : Int) : Int :=
  if a = infinity ∨ b = infinity then infinity else a + b

/-- Modelled from the spec: the type `Key`, not part of the available sources; a pair
`(k1, k2)`, here `(first, second)`. -/
structure Key where
  first : Int
  second : Int
  deriving DecidableEq, Repr

/-- Modelled from the spec: the key of a cell state, not part of the available sources;
`k2 = min(s.g, s.r)` and `k1 = k2 + h(s.coordinate, goal)`. -/
def Key.of_state (s : LpState) (h : Coordinate → Coordinate → Int) (goal : Coordinate) : Key :=
  let k2 := min s.g s.r
  ⟨sat_add k2 (h s.coordinate goal), k2⟩

/-- Modelled from the spec: the order on keys, not part of the available sources;
lexicographic, `a < b` iff `a.k1 < b.k1` or (`a.k1 == b.k1` and `a.k2 < b.k2`). -/
def Key.lt (a b : Key) : Bool :=
  decide (a.first < b.first) || (decide (a.first = b.first) && decide (a.second < b.second))

/-- Modelled from the spec: the queue comparator of the engine, not part of the available
sources; `compare(a, b) ≡ Key(a, h, goal) < Key(b, h, goal)`. -/
def lp_compare (h : Coordinate → Coordinate → Int) (goal : Coordinate) (a b : LpState) : Bool :=
  Key.lt (Key.of_state a h goal) (Key.of_state b h goal)

/-- Modelled from the spec: the key of a cell state, not part of the available sources, with
the first component as the unit tests under `UnitTests/` pin it down where they contradict the
spec's formula: `k1 = min(s.g, s.r + h(s.coordinate, goal))`, `k2 = min(s.g, s.r)`.  The
fixture `lp_key` expects `Key{6,6}` for the state `{3,4}`, `g = 6`, `r = 7` under `manhattan`
for the goals `(39,39)` and `(4,4)`. -/
def Key.of_state_tested (s : LpState) (h : Coordinate → Coordinate → Int) (goal : Coordinate) :
    Key :=
  ⟨min s.g (sat_add s.r (h s.coordinate goal)), min s.g s.r⟩

/-- Modelled from the spec: the queue comparator of the engine, not part of the available
sources, over the keys as the unit tests pin them down. -/
def lp_compare_tested (h : Coordinate → Coordinate → Int) (goal : Coordinate)
    (a b : LpState) : Bool :=
  Key.lt (Key.of_state_tested a h goal) (Key.of_state_tested b h goal)

namespace StrictWeakOrder

variable {compare : α → α → Bool}

theorem asymm (h : StrictWeakOrder compare) {a b : α} (hab : compare a b = true) :
    compare b a = false := by
  cases hba : compare b a with
  | false => rfl
  | true =>
    have := h.trans a b a hab hba
    rw [h.irrefl a] at this
    cases this

/-- Negative transitivity: "does not rank before" is transitive. -/
theorem not_lt_trans (h : StrictWeakOrder compare) {a b c : α}
    (hab : compare a b = false) (hbc : compare b c = false) : compare a c = false := by
  cases hac : compare a c with
  | false => rfl
  | true =>
    cases hba : compare b a with
    | true =>
      have := h.trans b a c hba hac
      rw [hbc] at this; cases this
    | false =>
      cases hcb : compare c b with
      | true =>
        have := h.trans a c b hac hcb
        rw [hab] at this; cases this
      | false =>
        have := (h.incomp_trans a b c hab hba hbc hcb).1
        rw [hac] at this; cases this

/-- Something ranked before `b` is ranked before everything that `b` does not follow. -/
theorem lt_of_lt_of_not_lt (h : StrictWeakOrder compare) {a b c : α}
    (hab : compare a b = true) (hcb : compare c b = false) : compare a c = true := by
  cases hac : compare a c with
  | true => rfl
  | false =>
    have := h.not_lt_trans hac hcb
    rw [hab] at this; cases this

/-- Nothing ranked after `b` ranks before something that ranks before `b`. -/
theorem not_lt_of_not_lt_of_lt (h : StrictWeakOrder compare) {a b c : α}
    (hab : compare a b = false) (hcb : compare c b = true) : compare a c = false := by
  cases hac : compare a c with
  | false => rfl
  | true =>
    have := h.trans a c b hac hcb
    rw [hab] at this; cases this

end StrictWeakOrder

/-! ## Vector lemmas -/

section vector

variable [Inhabited α]

theorem deref_eq_getElem (a : List α) (i : Nat) (h : i < a.length) : deref a i = a[i] := by
  unfold deref
  exact List.getD_eq_getElem a default h

theorem deref_mem (a : List α) (i : Nat) (h : i < a.length) : deref a i ∈ a := by
  rw [deref_eq_getElem a i h]
  exact List.getElem_mem h

theorem deref_set_self (a : List α) (i : Nat) (v : α) (h : i < a.length) :
    deref (a.set i v) i = v := by
  unfold deref
  rw [List.getD_eq_getElem?_getD, List.getElem?_set_self h]
  rfl

theorem deref_set_ne (a : List α) (i j : Nat) (v : α) (h : i ≠ j) :
    deref (a.set i v) j = deref a j := by
  unfold deref
  rw [List.getD_eq_getElem?_getD, List.getD_eq_getElem?_getD, List.getElem?_set_ne h]

theorem length_swap (a : List α) (i j : Nat) : (swap a i j).length = a.length := by
  simp [swap]

theorem deref_swap_left (a : List α) (i j : Nat) (hi : i < a.length) (hj : j < a.length) :
    deref (swap a i j) i = deref a j := by
  unfold swap
  by_cases hij : i = j
  · subst hij
    rw [deref_set_self _ _ _ (by simpa using hi)]
  · rw [deref_set_ne _ _ _ _ (Ne.symm hij), deref_set_self _ _ _ hi]

theorem deref_swap_right (a : List α) (i j : Nat) (hj : j < a.length) :
    deref (swap a i j) j = deref a i := by
  unfold swap
  rw [deref_set_self _ _ _ (by simpa using hj)]

theorem deref_swap_other (a : List α) (i j k : Nat) (hi : k ≠ i) (hj : k ≠ j) :
    deref (swap a i j) k = deref a k := by
  unfold swap
  rw [deref_set_ne _ _ _ _ (Ne.symm hj), deref_set_ne _ _ _ _ (Ne.symm hi)]

/-- Overwriting position `i` trades the old value at `i` for the new one. -/
theorem cons_set_perm (a : List α) (i : Nat) (v : α) (h : i < a.length) :
    List.Perm (deref a i :: a.set i v) (v :: a) := by
  rw [deref_eq_getElem a i h]
  have h1 : a.set i v = a.take i ++ v :: a.drop (i + 1) := by
    rw [List.set_eq_take_append_cons_drop, if_pos h]
  have h2 : a = a.take i ++ a[i] :: a.drop (i + 1) := by
    rw [List.getElem_cons_drop, List.take_append_drop]
  rw [h1]
  refine List.Perm.trans ?_ (List.Perm.cons v (List.Perm.symm (List.Perm.trans
    (List.Perm.of_eq h2) List.perm_middle)))
  refine List.Perm.trans (List.Perm.cons _ List.perm_middle) ?_
  exact List.Perm.swap _ _ _

theorem swap_perm (a : List α) (i j : Nat) (hi : i < a.length) (hj : j < a.length) :
    List.Perm (swap a i j) a := by
  unfold swap
  have h1 := cons_set_perm a i (deref a j) hi
  have h2 := cons_set_perm (a.set i (deref a j)) j (deref a i) (by simpa using hj)
  have h3 : deref (a.set i (deref a j)) j = deref a j := by
    by_cases hij : i = j
    · subst hij; exact deref_set_self _ _ _ hi
    · exact deref_set_ne _ _ _ _ hij
  rw [h3] at h2
  exact List.Perm.cons_inv (List.Perm.trans h2 h1)

end vector

/-! ## Index lemmas -/

theorem parent_lt {i : Nat} (h : 0 < i) : parent i < i := by
  unfold parent; omega

theorem parent_eq_iff {c k : Nat} (h : 0 < c) :
    parent c = k ↔ c = 2 * k + 1 ∨ c = 2 * k + 2 := by
  unfold parent; omega

theorem left_child_eq (n k : Nat) :
    left_child n k = if 2 * k + 1 < n then 2 * k + 1 else n := by
  unfold left_child
  simp only
  split_ifs <;> omega

theorem right_child_eq (n k : Nat) :
    right_child n k = if 2 * k + 2 < n then 2 * k + 2 else n := by
  unfold right_child
  simp only [left_child_eq]
  split_ifs <;> omega

/-! ## Sift-down -/

section heapify

variable [Inhabited α] {compare : α → α → Bool}

theorem max_min_eq (compare : α → α → Bool) (a : List α) (n k : Nat) :
    max_min compare a n k =
      if 2 * k + 2 < n ∧ compare (deref a (2 * k + 2))
          (deref a (if 2 * k + 1 < n ∧ compare (deref a (2 * k + 1)) (deref a k) = true
            then 2 * k + 1 else k)) = true
      then 2 * k + 2
      else if 2 * k + 1 < n ∧ compare (deref a (2 * k + 1)) (deref a k) = true
        then 2 * k + 1 else k := by
  unfold max_min
  simp only [left_child_eq, right_child_eq]
  by_cases h1 : 2 * k + 1 < n <;> by_cases h2 : 2 * k + 2 < n <;>
    simp [h1, h2, Nat.ne_of_lt]

theorem max_min_range (compare : α → α → Bool) (a : List α) (n k : Nat)
    (h : max_min compare a n k ≠ k) :
    max_min compare a n k < n ∧ k < max_min compare a n k ∧
      parent (max_min compare a n k) = k := by
  rw [max_min_eq] at h ⊢
  unfold parent
  split_ifs at h ⊢ <;> omega

/-- When the selection keeps `curr`, no child in range ranks before it. -/
theorem max_min_stop (a : List α) (n k : Nat) (h : max_min compare a n k = k) :
    ∀ c, c < n → 0 < c → parent c = k → compare (deref a c) (deref a k) = false := by
  intro c hc hc0 hp
  rw [parent_eq_iff hc0] at hp
  rw [max_min_eq] at h
  by_cases h1 : 2 * k + 1 < n ∧ compare (deref a (2 * k + 1)) (deref a k) = true
  · rw [if_pos h1] at h
    split_ifs at h <;> omega
  · rw [if_neg h1] at h
    by_cases h2 : 2 * k + 2 < n ∧ compare (deref a (2 * k + 2)) (deref a k) = true
    · rw [if_pos h2] at h; omega
    · rcases hp with hp | hp
      · subst hp
        cases hv : compare (deref a (2 * k + 1)) (deref a k) with
        | false => rfl
        | true => exact absurd ⟨hc, hv⟩ h1
      · subst hp
        cases hv : compare (deref a (2 * k + 2)) (deref a k) with
        | false => rfl
        | true => exact absurd ⟨hc, hv⟩ h2

/-- When the selection moves to a child, that child ranks before `curr` and no child in range
ranks before it. -/
theorem max_min_step (hswo : StrictWeakOrder compare) (a : List α) (n k : Nat)
    (h : max_min compare a n k ≠ k) :
    compare (deref a (max_min compare a n k)) (deref a k) = true ∧
      ∀ c, c < n → 0 < c → parent c = k →
        compare (deref a c) (deref a (max_min compare a n k)) = false := by
  rw [max_min_eq] at h ⊢
  by_cases h1 : 2 * k + 1 < n ∧ compare (deref a (2 * k + 1)) (deref a k) = true
  · simp only [if_pos h1] at h ⊢
    by_cases h2 : 2 * k + 2 < n ∧ compare (deref a (2 * k + 2)) (deref a (2 * k + 1)) = true
    · simp only [if_pos h2]
      refine ⟨hswo.trans _ _ _ h2.2 h1.2, ?_⟩
      intro c hc hc0 hp
      rcases (parent_eq_iff hc0).1 hp with hp | hp
      · subst hp; exact hswo.asymm h2.2
      · subst hp; exact hswo.irrefl _
    · simp only [if_neg h2]
      refine ⟨h1.2, ?_⟩
      intro c hc hc0 hp
      rcases (parent_eq_iff hc0).1 hp with hp | hp
      · subst hp; exact hswo.irrefl _
      · subst hp
        cases hv : compare (deref a (2 * k + 2)) (deref a (2 * k + 1)) with
        | false => rfl
        | true => exact absurd ⟨hc, hv⟩ h2
  · simp only [if_neg h1] at h ⊢
    by_cases h2 : 2 * k + 2 < n ∧ compare (deref a (2 * k + 2)) (deref a k) = true
    · simp only [if_pos h2]
      refine ⟨h2.2, ?_⟩
      intro c hc hc0 hp
      rcases (parent_eq_iff hc0).1 hp with hp | hp
      · subst hp
        have hl : compare (deref a (2 * k + 1)) (deref a k) = false := by
          cases hv : compare (deref a (2 * k + 1)) (deref a k) with
          | false => rfl
          | true => exact absurd ⟨by omega, hv⟩ h1
        exact hswo.not_lt_of_not_lt_of_lt hl h2.2
      · subst hp; exact hswo.irrefl _
    · rw [if_neg h2] at h
      exact absurd rfl h

theorem heapify_stop (compare : α → α → Bool) (a : List α) (n k : Nat)
    (h : max_min compare a n k = k) : heapify compare a n k = a := by
  rw [heapify]
  simp [h]

theorem heapify_step (compare : α → α → Bool) (a : List α) (n k : Nat)
    (h : max_min compare a n k ≠ k) :
    heapify compare a n k
      = heapify compare (swap a (max_min compare a n k) k) n (max_min compare a n k) := by
  rw [heapify]
  simp [Ne.symm h]

theorem heapify_length (compare : α → α → Bool) (a : List α) (n k : Nat) :
    (heapify compare a n k).length = a.length := by
  generalize hd : n - k = d
  induction d using Nat.strong_induction_on generalizing a k with
  | _ d ih =>
    subst hd
    by_cases hm : max_min compare a n k = k
    · rw [heapify_stop _ _ _ _ hm]
    · rw [heapify_step _ _ _ _ hm]
      have hr := max_min_range compare a n k hm
      rw [ih (n - max_min compare a n k) (by omega) _ _ rfl, length_swap]

theorem heapify_perm (compare : α → α → Bool) (a : List α) (n k : Nat) (hn : n ≤ a.length) :
    List.Perm (heapify compare a n k) a := by
  generalize hd : n - k = d
  induction d using Nat.strong_induction_on generalizing a k with
  | _ d ih =>
    subst hd
    by_cases hm : max_min compare a n k = k
    · rw [heapify_stop _ _ _ _ hm]
    · rw [heapify_step _ _ _ _ hm]
      have hr := max_min_range compare a n k hm
      refine List.Perm.trans
        (ih (n - max_min compare a n k) (by omega) _ _ (by rw [length_swap]; exact hn) rfl) ?_
      exact swap_perm a _ _ (by omega) (by omega)

/-- Sift-down on the range `[0, n)` writes no position from `n` on. -/
theorem heapify_frame (compare : α → α → Bool) (a : List α) (n k : Nat) :
    ∀ j, n ≤ j → deref (heapify compare a n k) j = deref a j := by
  generalize hd : n - k = d
  induction d using Nat.strong_induction_on generalizing a k with
  | _ d ih =>
    subst hd
    intro j hj
    by_cases hm : max_min compare a n k = k
    · rw [heapify_stop _ _ _ _ hm]
    · rw [heapify_step _ _ _ _ hm]
      have hr := max_min_range compare a n k hm
      rw [ih (n - max_min compare a n k) (by omega) _ _ rfl j hj,
        deref_swap_other a _ _ j (by omega) (by omega)]

/-- Sift-down repairs a range whose only defect is at `k`. -/
theorem heapify_is_heap (hswo : StrictWeakOrder compare) (a : List α) (n k : Nat)
    (hn : n ≤ a.length) (h : heap_except compare a n k) :
    is_heap compare (heapify compare a n k) n := by
  generalize hd : n - k = d
  induction d using Nat.strong_induction_on generalizing a k with
  | _ d ih =>
    subst hd
    by_cases hm : max_min compare a n k = k
    · rw [heapify_stop _ _ _ _ hm]
      intro i hi hi0
      by_cases hp : parent i = k
      · have := max_min_stop a n k hm i hi hi0 hp
        rw [hp]; exact this
      · exact h.1 i hi hi0 hp
    · rw [heapify_step _ _ _ _ hm]
      obtain ⟨hmn, hkm, hpm⟩ := max_min_range compare a n k hm
      obtain ⟨hsel, hmin⟩ := max_min_step hswo a n k hm
      generalize max_min compare a n k = m at *
      have hml : m < a.length := by omega
      have hkl : k < a.length := by omega
      apply ih (n - m) (by omega) _ _ (by rw [length_swap]; exact hn) _ rfl
      constructor
      · intro i hi hi0 hpi
        by_cases him : i = m
        · subst him
          rw [hpm, deref_swap_left a i k hml hkl, deref_swap_right a i k hkl]
          exact hswo.asymm hsel
        · by_cases hik : i = k
          · subst hik
            have hpk := parent_lt hi0
            rw [deref_swap_right a m i hkl,
              deref_swap_other a m i (parent i) (by omega) (by omega)]
            exact h.2 hi0 m hmn (by omega) hpm
          · rw [deref_swap_other a m k i him hik]
            by_cases hpk : parent i = k
            · rw [hpk, deref_swap_right a m k hkl]
              exact hmin i hi hi0 hpk
            · rw [deref_swap_other a m k (parent i) hpi hpk]
              exact h.1 i hi hi0 hpk
      · intro hm0 c hc hc0 hpc
        have hcm := parent_lt hc0
        rw [hpm, deref_swap_right a m k hkl, deref_swap_other a m k c (by omega) (by omega)]
        have := h.1 c hc hc0 (by omega)
        rw [hpc] at this
        exact this

end heapify

/-! ## Resizing -/

section resize

variable [Inhabited α]

theorem length_resize (a : List α) (n : Nat) : (resize a n).length = n := by
  unfold resize
  simp only [List.length_append, List.length_take, List.length_replicate]
  omega

theorem resize_succ (a : List α) : resize a (a.length + 1) = a ++ [default] := by
  unfold resize
  rw [List.take_of_length_le (by omega)]
  have : a.length + 1 - a.length = 1 := by omega
  rw [this]
  rfl

theorem resize_pred (a : List α) : resize a (a.length - 1) = a.take (a.length - 1) := by
  unfold resize
  have : a.length - 1 - a.length = 0 := by omega
  rw [this]
  simp

theorem deref_take (a : List α) (n i : Nat) (h : i < n) : deref (a.take n) i = deref a i := by
  unfold deref
  rw [List.getD_eq_getElem?_getD, List.getD_eq_getElem?_getD, List.getElem?_take_of_lt h]

theorem deref_append_left (a b : List α) (i : Nat) (h : i < a.length) :
    deref (a ++ b) i = deref a i := by
  unfold deref
  rw [List.getD_eq_getElem?_getD, List.getD_eq_getElem?_getD, List.getElem?_append_left h]

end resize

/-! ## The loop of `push` -/

section push_loop

open PriorityQueue

variable [Inhabited α] {compare : α → α → Bool}

theorem push_loop_stop (compare : α → α → Bool) (v : α) (a : List α) (curr : Nat)
    (h : ¬ (curr > 0 ∧ compare v (deref a (parent curr)) = true)) :
    push_loop compare v a curr = (a, curr) := by
  rw [push_loop]
  simp only [h, if_false]

theorem push_loop_step (compare : α → α → Bool) (v : α) (a : List α) (curr : Nat)
    (h : curr > 0 ∧ compare v (deref a (parent curr)) = true) :
    push_loop compare v a curr
      = push_loop compare v (a.set curr (deref a (parent curr))) (parent curr) := by
  rw [push_loop]
  simp only [h, and_self, if_true]

theorem push_loop_length (compare : α → α → Bool) (v : α) (a : List α) (curr : Nat) :
    (push_loop compare v a curr).1.length = a.length := by
  induction curr using Nat.strong_induction_on generalizing a with
  | _ curr ih =>
    by_cases h : curr > 0 ∧ compare v (deref a (parent curr)) = true
    · rw [push_loop_step _ _ _ _ h, ih (parent curr) (parent_lt h.1), List.length_set]
    · rw [push_loop_stop _ _ _ _ h]

theorem push_loop_le (compare : α → α → Bool) (v : α) (a : List α) (curr : Nat) :
    (push_loop compare v a curr).2 ≤ curr := by
  induction curr using Nat.strong_induction_on generalizing a with
  | _ curr ih =>
    by_cases h : curr > 0 ∧ compare v (deref a (parent curr)) = true
    · rw [push_loop_step _ _ _ _ h]
      have := ih (parent curr) (parent_lt h.1) (a.set curr (deref a (parent curr)))
      have := parent_lt h.1
      omega
    · rw [push_loop_stop _ _ _ _ h]

/-- Writing the pending value where the loop stops yields a rearrangement of writing it where
the loop started. -/
theorem push_loop_perm (compare : α → α → Bool) (v : α) (a : List α) (curr : Nat)
    (hc : curr < a.length) :
    List.Perm ((push_loop compare v a curr).1.set (push_loop compare v a curr).2 v)
      (a.set curr v) := by
  induction curr using Nat.strong_induction_on generalizing a with
  | _ curr ih =>
    by_cases h : curr > 0 ∧ compare v (deref a (parent curr)) = true
    · rw [push_loop_step _ _ _ _ h]
      have hp := parent_lt h.1
      refine List.Perm.trans (ih (parent curr) hp _ (by rw [List.length_set]; omega)) ?_
      have hsw := swap_perm (a.set curr v) curr (parent curr)
        (by rw [List.length_set]; exact hc) (by rw [List.length_set]; omega)
      unfold swap at hsw
      rw [deref_set_ne a curr (parent curr) v (by omega), deref_set_self a curr v hc,
        List.set_set] at hsw
      exact hsw
    · rw [push_loop_stop _ _ _ _ h]

/-- The loop of `push` ends in a heap when it starts from a state satisfying `push_inv`. -/
theorem push_loop_is_heap (hswo : StrictWeakOrder compare) (v : α) (a : List α) (n curr : Nat)
    (hn : n ≤ a.length) (hc : curr < n) (h : push_inv compare v a n curr) :
    is_heap compare ((push_loop compare v a curr).1.set (push_loop compare v a curr).2 v) n := by
  induction curr using Nat.strong_induction_on generalizing a with
  | _ curr ih =>
    obtain ⟨J1, J2, J3⟩ := h
    have hcl : curr < a.length := by omega
    by_cases hs : curr > 0 ∧ compare v (deref a (parent curr)) = true
    · rw [push_loop_step _ _ _ _ hs]
      obtain ⟨hc0, hv⟩ := hs
      have hp := parent_lt hc0
      apply ih (parent curr) hp _ (by rw [List.length_set]; exact hn) (by omega)
      refine ⟨?_, ?_, ?_⟩
      · intro i hi hi0 hip hpp
        have hic : i ≠ curr := by
          intro he; subst he; exact hpp rfl
        rw [deref_set_ne a curr i _ (Ne.symm hic)]
        by_cases hpc : parent i = curr
        · rw [hpc, deref_set_self a curr _ hcl]
          exact J3 hc0 i hi hi0 hpc
        · rw [deref_set_ne a curr (parent i) _ (Ne.symm hpc)]
          exact J1 i hi hi0 hic hpc
      · intro i hi hi0 hpi
        by_cases hic : i = curr
        · subst hic
          rw [deref_set_self a i _ hcl]
          exact hswo.asymm hv
        · rw [deref_set_ne a curr i _ (Ne.symm hic)]
          have := J1 i hi hi0 hic (by omega)
          rw [hpi] at this
          exact hswo.not_lt_of_not_lt_of_lt this hv
      · intro hp0 i hi hi0 hpi
        have hpp := parent_lt hp0
        rw [deref_set_ne a curr (parent (parent curr)) _ (by omega)]
        have hpar := J1 (parent curr) (by omega) hp0 (by omega) (by omega)
        by_cases hic : i = curr
        · subst hic
          rw [deref_set_self a i _ hcl]
          exact hpar
        · rw [deref_set_ne a curr i _ (Ne.symm hic)]
          have := J1 i hi hi0 hic (by omega)
          rw [hpi] at this
          exact hswo.not_lt_trans this hpar
    · rw [push_loop_stop _ _ _ _ hs]
      intro i hi hi0
      by_cases hic : i = curr
      · subst hic
        have hp := parent_lt hi0
        rw [deref_set_self a i v hcl, deref_set_ne a i (parent i) v (by omega)]
        cases hv : compare v (deref a (parent i)) with
        | false => rfl
        | true => exact absurd ⟨hi0, hv⟩ hs
      · rw [deref_set_ne a curr i v (Ne.symm hic)]
        by_cases hpc : parent i = curr
        · rw [hpc, deref_set_self a curr v hcl]
          exact J2 i hi hi0 hpc
        · rw [deref_set_ne a curr (parent i) v (Ne.symm hpc)]
          exact J1 i hi hi0 hic hpc

end push_loop

/-! ## Where the loop of `push` stops -/

section push_root

open PriorityQueue

variable [Inhabited α] {compare : α → α → Bool}

/-- Positions before the one where the loop stops are never written. -/
theorem push_loop_frame (compare : α → α → Bool) (v : α) (a : List α) (curr : Nat) :
    ∀ j, j < (push_loop compare v a curr).2 →
      deref (push_loop compare v a curr).1 j = deref a j := by
  induction curr using Nat.strong_induction_on generalizing a with
  | _ curr ih =>
    by_cases h : curr > 0 ∧ compare v (deref a (parent curr)) = true
    · rw [push_loop_step _ _ _ _ h]
      intro j hj
      have hp := parent_lt h.1
      have hle := push_loop_le compare v (a.set curr (deref a (parent curr))) (parent curr)
      rw [ih (parent curr) hp _ j hj, deref_set_ne a curr j _ (by omega)]
    · rw [push_loop_stop _ _ _ _ h]
      intro j _
      rfl

/-- The loop stops at the root or below a parent that the pending value does not precede. -/
theorem push_loop_exit (compare : α → α → Bool) (v : α) (a : List α) (curr : Nat) :
    (push_loop compare v a curr).2 = 0 ∨
      compare v (deref (push_loop compare v a curr).1
        (parent (push_loop compare v a curr).2)) = false := by
  induction curr using Nat.strong_induction_on generalizing a with
  | _ curr ih =>
    by_cases h : curr > 0 ∧ compare v (deref a (parent curr)) = true
    · rw [push_loop_step _ _ _ _ h]
      exact ih (parent curr) (parent_lt h.1) _
    · rw [push_loop_stop _ _ _ _ h]
      by_cases hc : curr = 0
      · exact Or.inl hc
      · right
        cases hv : compare v (deref a (parent curr)) with
        | false => rfl
        | true => exact absurd ⟨Nat.pos_of_ne_zero hc, hv⟩ h

/-- The loop reaches the root only from the root or past a root that the pending value
precedes. -/
theorem push_loop_reach_root (compare : α → α → Bool) (v : α) (a : List α) (curr : Nat)
    (h0 : (push_loop compare v a curr).2 = 0) :
    curr = 0 ∨ compare v (deref a 0) = true := by
  induction curr using Nat.strong_induction_on generalizing a with
  | _ curr ih =>
    by_cases h : curr > 0 ∧ compare v (deref a (parent curr)) = true
    · rw [push_loop_step _ _ _ _ h] at h0
      right
      rcases ih (parent curr) (parent_lt h.1) _ h0 with hp | hp
      · rw [hp] at h; exact h.2
      · rw [deref_set_ne a curr 0 _ (by omega)] at hp
        exact hp
    · rw [push_loop_stop _ _ _ _ h] at h0
      exact Or.inl h0

end push_root

/-! ## Queue operations: `push`, `top`, `pop` -/

namespace PriorityQueue

section queue

variable [Inhabited α]

theorem push_compare (q : PriorityQueue α) (v : α) : (q.push v)._compare = q._compare := rfl

theorem push_seq (q : PriorityQueue α) (v : α) :
    (q.push v)._seq
      = (push_loop q._compare v (q._seq ++ [default]) q._seq.length).1.set
          (push_loop q._compare v (q._seq ++ [default]) q._seq.length).2 v := by
  unfold push size
  simp only [resize_succ, List.length_append, List.length_singleton, Nat.add_sub_cancel]

theorem push_length (q : PriorityQueue α) (v : α) :
    (q.push v)._seq.length = q._seq.length + 1 := by
  rw [push_seq, List.length_set, push_loop_length]
  simp

theorem push_perm (q : PriorityQueue α) (v : α) : List.Perm (q.push v)._seq (v :: q._seq) := by
  rw [push_seq]
  refine List.Perm.trans (push_loop_perm _ v _ _ (by simp)) ?_
  have : (q._seq ++ [default]).set q._seq.length v = q._seq ++ [v] := by
    rw [List.set_append_right _ _ (Nat.le_refl _)]
    simp
  rw [this]
  exact List.perm_append_singleton v q._seq

theorem push_heap_valid (q : PriorityQueue α) (v : α) (hswo : StrictWeakOrder q._compare)
    (h : q.heap_valid) : (q.push v).heap_valid := by
  unfold heap_valid
  rw [push_length, push_compare, push_seq]
  apply push_loop_is_heap hswo v _ _ _ (by simp) (by omega)
  refine ⟨?_, ?_, ?_⟩
  · intro i hi hi0 hic _
    have hp := parent_lt hi0
    rw [deref_append_left _ _ i (by omega), deref_append_left _ _ (parent i) (by omega)]
    exact h i (by omega) hi0
  · intro i hi hi0 hpi
    have hp := parent_lt hi0
    omega
  · intro _ i hi hi0 hpi
    have hp := parent_lt hi0
    omega

end queue

end PriorityQueue

section top

variable [Inhabited α] {compare : α → α → Bool}

/-- In a heap nothing in range ranks before the root. -/
theorem is_heap_root_min (hswo : StrictWeakOrder compare) (a : List α) (n : Nat)
    (h : is_heap compare a n) : ∀ i, i < n → compare (deref a i) (deref a 0) = false := by
  intro i
  induction i using Nat.strong_induction_on with
  | _ i ih =>
    intro hi
    by_cases hi0 : i = 0
    · subst hi0; exact hswo.irrefl _
    · have hp := parent_lt (Nat.pos_of_ne_zero hi0)
      exact hswo.not_lt_trans (h i hi (Nat.pos_of_ne_zero hi0)) (ih (parent i) hp (by omega))

theorem is_heap_root_min_mem (hswo : StrictWeakOrder compare) (a : List α)
    (h : is_heap compare a a.length) : ∀ x ∈ a, compare x (deref a 0) = false := by
  intro x hx
  obtain ⟨i, hi, rfl⟩ := List.getElem_of_mem hx
  rw [← deref_eq_getElem a i hi]
  exact is_heap_root_min hswo a a.length h i hi

end top

namespace PriorityQueue

theorem empty_eq_false_iff (q : PriorityQueue α) : q.empty = false ↔ q._seq ≠ [] := by
  unfold empty
  cases q._seq <;> simp

theorem empty_eq_true_iff (q : PriorityQueue α) : q.empty = true ↔ q._seq = [] := by
  unfold empty
  cases q._seq <;> simp

section queue_pop

variable [Inhabited α]

theorem pop_of_ne_nil (q : PriorityQueue α) (h : q._seq ≠ []) :
    q.pop = (Except.ok (deref q._seq 0),
      PriorityQueue.mk (heapify q._compare
          ((q._seq.set 0 (deref q._seq (q._seq.length - 1))).take (q._seq.length - 1))
          (q._seq.length - 1) 0) q._compare) := by
  unfold pop
  rw [(empty_eq_false_iff q).2 h]
  have hr := resize_pred (q._seq.set 0 (deref q._seq (q._seq.length - 1)))
  rw [List.length_set] at hr
  simp only [Bool.false_eq_true, if_false, List.length_set, hr, List.length_take]
  have hmin : min (q._seq.length - 1) q._seq.length = q._seq.length - 1 := by omega
  rw [hmin]

theorem pop_of_nil (q : PriorityQueue α) (h : q._seq = []) :
    q.pop = (Except.error (Exception.underflow_error "underflow."), q) := by
  unfold pop
  rw [(empty_eq_true_iff q).2 h]
  simp

theorem pop_compare (q : PriorityQueue α) : q.pop.2._compare = q._compare := by
  by_cases h : q._seq = []
  · rw [pop_of_nil q h]
  · rw [pop_of_ne_nil q h]

theorem pop_length (q : PriorityQueue α) (h : q._seq ≠ []) :
    q.pop.2._seq.length + 1 = q._seq.length := by
  rw [pop_of_ne_nil q h]
  simp only [heapify_length, List.length_take, List.length_set]
  have := List.length_pos.2 h
  omega

/-- The vector that `pop` hands to `heapify`, together with the popped value, is a
rearrangement of the stored sequence. -/
theorem pop_prepare_perm (a : List α) (h : a ≠ []) :
    List.Perm (deref a 0 :: (a.set 0 (deref a (a.length - 1))).take (a.length - 1)) a := by
  cases a with
  | nil => exact absurd rfl h
  | cons x t =>
    simp only [List.set_cons_zero, List.length_cons, Nat.add_sub_cancel]
    have hx : deref (x :: t) 0 = x := rfl
    rw [hx]
    rcases List.eq_nil_or_concat t with ht | ⟨t1, y, ht⟩
    · subst ht; simp
    · subst ht
      rw [List.concat_eq_append] at h ⊢
      have hy : deref (x :: (t1 ++ [y])) (t1 ++ [y]).length = y := by
        unfold deref
        simp
      rw [hy]
      have : List.take (t1 ++ [y]).length (y :: (t1 ++ [y])) = y :: t1 := by
        simp [List.take_append_eq_append_take]
      rw [this]
      refine List.Perm.cons x ?_
      exact (List.perm_append_singleton y t1).symm

theorem pop_perm (q : PriorityQueue α) (h : q._seq ≠ []) :
    List.Perm (deref q._seq 0 :: q.pop.2._seq) q._seq := by
  rw [pop_of_ne_nil q h]
  refine List.Perm.trans (List.Perm.cons _ (heapify_perm _ _ _ _ ?_)) (pop_prepare_perm _ h)
  simp only [List.length_take, List.length_set]
  omega

theorem pop_heap_valid (q : PriorityQueue α) (hswo : StrictWeakOrder q._compare)
    (h : q.heap_valid) : q.pop.2.heap_valid := by
  by_cases hne : q._seq = []
  · rw [pop_of_nil q hne]; exact h
  · have hlen := pop_length q hne
    unfold heap_valid
    have hl : q.pop.2._seq.length = q._seq.length - 1 := by omega
    rw [hl, pop_compare]
    rw [pop_of_ne_nil q hne]
    apply heapify_is_heap hswo
    · simp only [List.length_take, List.length_set]; omega
    · refine ⟨?_, ?_⟩
      · intro i hi hi0 hp
        have hpl := parent_lt hi0
        rw [deref_take _ _ i hi, deref_take _ _ (parent i) (by omega),
          deref_set_ne _ 0 i _ (by omega), deref_set_ne _ 0 (parent i) _ (Ne.symm hp)]
        exact h i (by omega) hi0
      · intro h0; exact absurd h0 (Nat.lt_irrefl 0)

theorem top_eq_deref (q : PriorityQueue α) (h : q._seq ≠ []) :
    q.top = some (deref q._seq 0) := by
  unfold top
  cases hq : q._seq with
  | nil => exact absurd hq h
  | cons x t => rfl

theorem push_all_nil (q : PriorityQueue α) : q.push_all [] = q := rfl

theorem push_all_cons (q : PriorityQueue α) (x : α) (l : List α) :
    q.push_all (x :: l) = (q.push x).push_all l := rfl

theorem push_all_append (q : PriorityQueue α) (l1 l2 : List α) :
    q.push_all (l1 ++ l2) = (q.push_all l1).push_all l2 := by
  unfold push_all
  rw [List.foldl_append]

theorem push_all_compare (q : PriorityQueue α) (l : List α) :
    (q.push_all l)._compare = q._compare := by
  induction l generalizing q with
  | nil => rfl
  | cons x t ih => rw [push_all_cons, ih, push_compare]

theorem push_all_perm (q : PriorityQueue α) (l : List α) :
    List.Perm (q.push_all l)._seq (l ++ q._seq) := by
  induction l generalizing q with
  | nil => exact List.Perm.refl _
  | cons x t ih =>
    rw [push_all_cons]
    refine List.Perm.trans (ih (q.push x)) ?_
    refine List.Perm.trans (List.Perm.append_left t (push_perm q x)) ?_
    exact List.perm_middle

theorem push_all_heap_valid (q : PriorityQueue α) (l : List α)
    (hswo : StrictWeakOrder q._compare) (h : q.heap_valid) : (q.push_all l).heap_valid := by
  induction l generalizing q with
  | nil => exact h
  | cons x t ih =>
    rw [push_all_cons]
    exact ih (q.push x) (by rw [push_compare]; exact hswo) (push_heap_valid q x hswo h)

theorem heap_valid_mk_empty (c : α → α → Bool) : (mk_empty c).heap_valid := by
  intro i hi
  exact absurd hi (Nat.not_lt_zero i)

/-- Popping a heap-valid queue exactly as many times as it has elements drains it in
comparator order. -/
theorem pop_n_drains (n : Nat) (q : PriorityQueue α) (hswo : StrictWeakOrder q._compare)
    (h : q.heap_valid) (hlen : q._seq.length = n) :
    ∃ out q1, pop_n n q = (Except.ok out, q1) ∧ List.Perm out q._seq ∧
      out.Pairwise (fun x y => q._compare y x = false) ∧ q1._seq = [] ∧
      q1._compare = q._compare := by
  induction n generalizing q with
  | zero =>
    refine ⟨[], q, rfl, ?_, List.Pairwise.nil, List.length_eq_zero.1 hlen, rfl⟩
    rw [List.length_eq_zero.1 hlen]
  | succ n ih =>
    have hne : q._seq ≠ [] := by
      intro he; rw [he] at hlen; simp at hlen
    have hpl := pop_length q hne
    have hcmp := pop_compare q
    obtain ⟨out, q1, hrun, hperm, hsorted, hnil, hc1⟩ :=
      ih q.pop.2 (by rw [hcmp]; exact hswo) (pop_heap_valid q hswo h) (by omega)
    have hpop : q.pop = (Except.ok (deref q._seq 0), q.pop.2) := by
      rw [pop_of_ne_nil q hne]
    have hpp := pop_perm q hne
    refine ⟨deref q._seq 0 :: out, q1, ?_, ?_, ?_, hnil, by rw [hc1, hcmp]⟩
    · rw [pop_n, hpop]
      simp only [hrun]
    · exact List.Perm.trans (List.Perm.cons _ hperm) hpp
    · rw [List.pairwise_cons]
      refine ⟨?_, ?_⟩
      · intro y hy
        have hy1 : y ∈ q._seq :=
          List.Perm.subset hpp (List.mem_cons_of_mem _ (List.Perm.subset hperm hy))
        exact is_heap_root_min_mem hswo q._seq h y hy1
      · rw [hcmp] at hsorted
        exact hsorted

end queue_pop

end PriorityQueue

/-! ## The root after `push` -/

namespace PriorityQueue

section root

variable [Inhabited α]

theorem deref_append_length (l : List α) (x : α) : deref (l ++ [x]) l.length = x := by
  unfold deref
  simp

/-- On a non-empty heap, `push v` puts `v` at the root exactly when `v` ranks before the old
root, and leaves the old root in place otherwise. -/
theorem push_root (q : PriorityQueue α) (v : α) (hswo : StrictWeakOrder q._compare)
    (hheap : q.heap_valid) (hne : q._seq ≠ []) :
    deref (q.push v)._seq 0 =
      if q._compare v (deref q._seq 0) = true then v else deref q._seq 0 := by
  have hpos : 0 < q._seq.length := List.length_pos.2 hne
  have hlen := push_loop_length q._compare v (q._seq ++ [default]) q._seq.length
  have hle := push_loop_le q._compare v (q._seq ++ [default]) q._seq.length
  have hframe := push_loop_frame q._compare v (q._seq ++ [default]) q._seq.length
  have hexit := push_loop_exit q._compare v (q._seq ++ [default]) q._seq.length
  have hreach := push_loop_reach_root q._compare v (q._seq ++ [default]) q._seq.length
  rw [push_seq]
  generalize push_loop q._compare v (q._seq ++ [default]) q._seq.length = r at *
  have hrl : 0 < r.1.length := by rw [hlen]; simp
  by_cases hv : q._compare v (deref q._seq 0) = true
  · rw [if_pos hv]
    have hr0 : r.2 = 0 := by
      rcases hexit with h0 | hstop
      · exact h0
      · by_contra hr
        have hp := parent_lt (Nat.pos_of_ne_zero hr)
        rw [hframe (parent r.2) hp, deref_append_left _ _ _ (by omega)] at hstop
        have hmin := is_heap_root_min hswo q._seq q._seq.length hheap (parent r.2) (by omega)
        have := hswo.lt_of_lt_of_not_lt hv hmin
        rw [hstop] at this
        cases this
    rw [hr0]
    exact deref_set_self _ 0 v hrl
  · rw [if_neg hv]
    have hr0 : r.2 ≠ 0 := by
      intro h0
      rcases hreach h0 with hz | hlt
      · omega
      · rw [deref_append_left _ _ 0 hpos] at hlt
        exact hv hlt
    rw [deref_set_ne _ _ 0 v hr0, hframe 0 (Nat.pos_of_ne_zero hr0),
      deref_append_left _ _ 0 hpos]

theorem push_seq_of_nil (q : PriorityQueue α) (v : α) (h : q._seq = []) :
    (q.push v)._seq = [v] := by
  have := push_perm q v
  rw [h] at this
  exact List.perm_singleton.1 this

/-- After pushing a non-empty list into an empty queue the root is the earliest pushed value
among those that no pushed value ranks before. -/
theorem push_all_root (compare : α → α → Bool) (hswo : StrictWeakOrder compare) (l : List α)
    (hne : l ≠ []) :
    ∃ i, i < l.length ∧ deref ((mk_empty compare).push_all l)._seq 0 = deref l i ∧
      (∀ y ∈ l, compare y (deref l i) = false) ∧
      (∀ j, j < i → compare (deref l i) (deref l j) = true) := by
  induction l using List.reverseRecOn with
  | nil => exact absurd rfl hne
  | append_singleton l x ih =>
    rw [push_all_append, push_all_cons, push_all_nil]
    by_cases hl : l = []
    · subst hl
      refine ⟨0, by simp, ?_, ?_, ?_⟩
      · rw [push_all_nil, push_seq_of_nil _ _ rfl]
        rfl
      · intro y hy
        simp only [List.nil_append, List.mem_singleton] at hy
        subst hy
        exact hswo.irrefl _
      · intro j hj
        exact absurd hj (Nat.not_lt_zero j)
    · obtain ⟨i, hi, hroot, hmin, hfirst⟩ := ih hl
      have hc : ((mk_empty compare).push_all l)._compare = compare := push_all_compare _ l
      have hheap := push_all_heap_valid (mk_empty compare) l hswo (heap_valid_mk_empty compare)
      have hperm := push_all_perm (mk_empty compare) l
      have hqne : ((mk_empty compare).push_all l)._seq ≠ [] := by
        intro he
        rw [he] at hperm
        have := List.Perm.length_eq hperm
        simp [mk_empty] at this
        exact hl (List.length_eq_zero.1 this.symm)
      have hr := push_root ((mk_empty compare).push_all l) x (by rw [hc]; exact hswo) hheap hqne
      rw [hc, hroot] at hr
      by_cases hx : compare x (deref l i) = true
      · rw [if_pos hx] at hr
        refine ⟨l.length, by simp, ?_, ?_, ?_⟩
        · rw [hr, deref_append_length]
        · rw [deref_append_length]
          intro y hy
          rcases List.mem_append.1 hy with hy | hy
          · exact hswo.not_lt_of_not_lt_of_lt (hmin y hy) hx
          · rw [List.mem_singleton.1 hy]
            exact hswo.irrefl _
        · rw [deref_append_length]
          intro j hj
          rw [deref_append_left _ _ j hj]
          exact hswo.lt_of_lt_of_not_lt hx (hmin _ (deref_mem l j hj))
      · rw [if_neg hx] at hr
        refine ⟨i, by simp; omega, ?_, ?_, ?_⟩
        · rw [hr, deref_append_left _ _ i hi]
        · rw [deref_append_left _ _ i hi]
          intro y hy
          rcases List.mem_append.1 hy with hy | hy
          · exact hmin y hy
          · rw [List.mem_singleton.1 hy]
            cases hv : compare x (deref l i) with
            | false => rfl
            | true => exact absurd hv hx
        · intro j hj
          rw [deref_append_left _ _ i hi, deref_append_left _ _ j (by omega)]
          exact hfirst j hj

end root

end PriorityQueue

/-! ## Searching the stored sequence -/

namespace PriorityQueue

theorem find_lt_length_iff [BEq α] (a : List α) (v : α) :
    find a v < a.length ↔ ∃ x ∈ a, (x == v) = true := by
  unfold find
  exact List.findIdx_lt_length

theorem find_eq_length_iff [BEq α] (a : List α) (v : α) :
    find a v = a.length ↔ ∀ x ∈ a, (x == v) = false := by
  unfold find
  exact List.findIdx_eq_length

theorem find_le_length [BEq α] (a : List α) (v : α) : find a v ≤ a.length := by
  unfold find
  exact List.findIdx_le_length _

theorem contains_eq_true_iff [BEq α] (q : PriorityQueue α) (v : α) :
    q.contains v = true ↔ ∃ x ∈ q._seq, (x == v) = true := by
  rw [← find_lt_length_iff]
  unfold contains
  have := find_le_length q._seq v
  simp only [bne_iff_ne, ne_eq]
  omega

theorem contains_eq_false_iff [BEq α] (q : PriorityQueue α) (v : α) :
    q.contains v = false ↔ ∀ x ∈ q._seq, (x == v) = false := by
  rw [← find_eq_length_iff]
  unfold contains
  simp only [bne_eq_false_iff_eq]
  exact eq_comm

end PriorityQueue

/-! ## Sift-up and removal by position -/

section sift_up

variable [Inhabited α]

theorem sift_up_loop_stop (compare : α → α → Bool) (a : List α) (c : Nat)
    (h : is_needed compare a c = false) : sift_up_loop compare a c = a := by
  rw [sift_up_loop]
  simp [h]

theorem sift_up_loop_step (compare : α → α → Bool) (a : List α) (c : Nat)
    (h : is_needed compare a c = true) :
    sift_up_loop compare a c = sift_up_loop compare (swap a (parent c) c) (parent c) := by
  rw [sift_up_loop]
  simp [h]

theorem is_needed_pos (compare : α → α → Bool) (a : List α) (c : Nat)
    (h : is_needed compare a c = true) : 0 < c := by
  unfold is_needed at h
  simp at h
  omega

theorem sift_up_loop_length (compare : α → α → Bool) (a : List α) (c : Nat) :
    (sift_up_loop compare a c).length = a.length := by
  induction c using Nat.strong_induction_on generalizing a with
  | _ c ih =>
    cases h : is_needed compare a c with
    | false => rw [sift_up_loop_stop _ _ _ h]
    | true =>
      rw [sift_up_loop_step _ _ _ h, ih (parent c) (parent_lt (is_needed_pos _ _ _ h)),
        length_swap]

theorem sift_up_loop_perm (compare : α → α → Bool) (a : List α) (c : Nat)
    (hc : c < a.length) : List.Perm (sift_up_loop compare a c) a := by
  induction c using Nat.strong_induction_on generalizing a with
  | _ c ih =>
    cases h : is_needed compare a c with
    | false => rw [sift_up_loop_stop _ _ _ h]
    | true =>
      have hp := parent_lt (is_needed_pos _ _ _ h)
      rw [sift_up_loop_step _ _ _ h]
      refine List.Perm.trans (ih (parent c) hp _ (by rw [length_swap]; omega)) ?_
      exact swap_perm a _ _ (by omega) hc

/-- Sift-up from `c` writes no position after `c`. -/
theorem sift_up_loop_frame (compare : α → α → Bool) (a : List α) (c : Nat) :
    ∀ j, c < j → deref (sift_up_loop compare a c) j = deref a j := by
  induction c using Nat.strong_induction_on generalizing a with
  | _ c ih =>
    intro j hj
    cases h : is_needed compare a c with
    | false => rw [sift_up_loop_stop _ _ _ h]
    | true =>
      have hp := parent_lt (is_needed_pos _ _ _ h)
      rw [sift_up_loop_step _ _ _ h, ih (parent c) hp _ j (by omega),
        deref_swap_other a _ _ j (by omega) (by omega)]

theorem sift_up_perm (compare : α → α → Bool) (a : List α) (c : Nat) (hc : c < a.length) :
    List.Perm (sift_up compare a c).2 a := by
  unfold sift_up
  split
  · exact List.Perm.refl _
  · exact sift_up_loop_perm compare a c hc

theorem sift_up_frame (compare : α → α → Bool) (a : List α) (c : Nat) :
    ∀ j, c < j → deref (sift_up compare a c).2 j = deref a j := by
  unfold sift_up
  split
  · intro j _; rfl
  · exact sift_up_loop_frame compare a c

theorem sift_up_of_not_needed (compare : α → α → Bool) (a : List α) (c : Nat)
    (h : is_needed compare a c = false) : sift_up compare a c = (false, a) := by
  unfold sift_up
  simp [h]

theorem swap_self (a : List α) (i : Nat) : swap a i i = a := by
  unfold swap
  rw [List.set_set]
  by_cases hi : i < a.length
  · rw [deref_eq_getElem a i hi, List.set_eq_take_append_cons_drop, if_pos hi,
      List.getElem_cons_drop, List.take_append_drop]
  · exact List.set_eq_of_length_le (by omega)

/-- A non-empty vector is its first `length - 1` elements followed by its last one. -/
theorem take_append_last (a : List α) (h : 0 < a.length) :
    a.take (a.length - 1) ++ [deref a (a.length - 1)] = a := by
  have hne : a ≠ [] := List.length_pos.1 h
  rw [deref_eq_getElem a _ (by omega), ← List.getLast_eq_getElem a hne,
    ← List.dropLast_eq_take]
  exact List.dropLast_append_getLast hne

theorem sift_up_length (compare : α → α → Bool) (a : List α) (c : Nat) :
    (sift_up compare a c).2.length = a.length := by
  unfold sift_up
  split
  · rfl
  · exact sift_up_loop_length compare a c

end sift_up

namespace PriorityQueue

theorem remove_at_length [Inhabited α] (q : PriorityQueue α) (pos : Nat) :
    (q.remove_at pos)._seq.length = q._seq.length - 1 := by
  unfold remove_at
  simp only [length_resize]
  split
  · rw [heapify_length, sift_up_length, length_swap]
  · rw [sift_up_length, length_swap]

/-- Removal by position deletes exactly the element at that position, provided the position is
not the last one or the last element need not move up (it is the root, or its parent ranks
strictly before it). -/
theorem remove_at_perm [Inhabited α] (q : PriorityQueue α) (pos : Nat)
    (hpos : pos < q._seq.length)
    (hok : pos < q._seq.length - 1 ∨ is_needed q._compare q._seq (q._seq.length - 1) = false) :
    List.Perm (deref q._seq pos :: (q.remove_at pos)._seq) q._seq := by
  have key : ∃ s2 : List α, (q.remove_at pos)._seq = s2.take (s2.length - 1) ∧
      s2.length = q._seq.length ∧ List.Perm s2 q._seq ∧
      deref s2 (q._seq.length - 1) = deref q._seq pos := by
    unfold remove_at
    simp only
    have hs1 := swap_perm q._seq pos (q._seq.length - 1) hpos (by omega)
    have hl1 := length_swap q._seq pos (q._seq.length - 1)
    rcases hok with hlt | hnn
    · have hsu := sift_up_perm q._compare (swap q._seq pos (q._seq.length - 1)) pos
        (by rw [hl1]; exact hpos)
      have hsl := sift_up_length q._compare (swap q._seq pos (q._seq.length - 1)) pos
      have hsf := sift_up_frame q._compare (swap q._seq pos (q._seq.length - 1)) pos
        (q._seq.length - 1) hlt
      rw [deref_swap_right q._seq pos _ (by omega)] at hsf
      split
      · refine ⟨_, resize_pred _, ?_, ?_, ?_⟩
        · rw [heapify_length, hsl, hl1]
        · exact List.Perm.trans (heapify_perm _ _ _ _ (by omega)) (List.Perm.trans hsu hs1)
        · rw [heapify_frame _ _ _ _ _ (by rw [hsl, hl1]), hsf]
      · exact ⟨_, resize_pred _, by rw [hsl, hl1], List.Perm.trans hsu hs1, hsf⟩
    · have hp : pos = q._seq.length - 1 ∨ pos < q._seq.length - 1 := by omega
      rcases hp with hp | hp
      · subst hp
        rw [swap_self, sift_up_of_not_needed _ _ _ hnn]
        simp only [Bool.not_false, if_true]
        refine ⟨_, resize_pred _, heapify_length _ _ _ _, heapify_perm _ _ _ _ (by omega), ?_⟩
        rw [heapify_frame _ _ _ _ _ (Nat.le_refl _)]
      · have hsu := sift_up_perm q._compare (swap q._seq pos (q._seq.length - 1)) pos
          (by rw [hl1]; exact hpos)
        have hsl := sift_up_length q._compare (swap q._seq pos (q._seq.length - 1)) pos
        have hsf := sift_up_frame q._compare (swap q._seq pos (q._seq.length - 1)) pos
          (q._seq.length - 1) hp
        rw [deref_swap_right q._seq pos _ (by omega)] at hsf
        split
        · refine ⟨_, resize_pred _, ?_, ?_, ?_⟩
          · rw [heapify_length, hsl, hl1]
          · exact List.Perm.trans (heapify_perm _ _ _ _ (by omega)) (List.Perm.trans hsu hs1)
          · rw [heapify_frame _ _ _ _ _ (by rw [hsl, hl1]), hsf]
        · exact ⟨_, resize_pred _, by rw [hsl, hl1], List.Perm.trans hsu hs1, hsf⟩
  obtain ⟨s2, hseq, hlen, hperm, hlast⟩ := key
  rw [hseq, ← hlast, ← hlen]
  have := take_append_last s2 (by omega)
  refine List.Perm.trans ?_ hperm
  refine List.Perm.trans ?_ (List.Perm.of_eq this)
  exact (List.perm_append_singleton _ _).symm

theorem remove_of_not_found [Inhabited α] [BEq α] (q : PriorityQueue α) (v : α)
    (h : ∀ x ∈ q._seq, (x == v) = false) : q.remove v = q := by
  unfold remove
  simp only [(find_eq_length_iff q._seq v).2 h, ne_eq, not_true_eq_false, if_false]

theorem remove_of_found [Inhabited α] [BEq α] (q : PriorityQueue α) (v : α)
    (h : ∃ x ∈ q._seq, (x == v) = true) : q.remove v = q.remove_at (find q._seq v) := by
  unfold remove
  have := (find_lt_length_iff q._seq v).2 h
  have hne : q._seq.length ≠ find q._seq v := by omega
  simp only [hne, ne_eq, not_false_eq_true, if_true]

theorem remove_length_of_found [Inhabited α] [BEq α] (q : PriorityQueue α) (v : α)
    (h : ∃ x ∈ q._seq, (x == v) = true) : (q.remove v)._seq.length + 1 = q._seq.length := by
  rw [remove_of_found q v h, remove_at_length]
  obtain ⟨x, hx, _⟩ := h
  have := List.length_pos_of_mem hx
  omega

end PriorityQueue

namespace PriorityQueue

theorem push_contains [Inhabited α] [BEq α] (q : PriorityQueue α) (v : α)
    (hrefl : ∀ x : α, (x == x) = true) : (q.push v).contains v = true := by
  rw [contains_eq_true_iff]
  exact ⟨v, List.Perm.mem_iff (push_perm q v) |>.2 (List.mem_cons_self v _), hrefl v⟩

/-- Removal by value deletes exactly the first element equal by value to `v`, provided that
element is not the last one or the last element need not move up. -/
theorem remove_perm [Inhabited α] [BEq α] (q : PriorityQueue α) (v : α)
    (h : ∃ x ∈ q._seq, (x == v) = true)
    (hok : find q._seq v < q._seq.length - 1 ∨
      is_needed q._compare q._seq (q._seq.length - 1) = false) :
    List.Perm (deref q._seq (find q._seq v) :: (q.remove v)._seq) q._seq := by
  rw [remove_of_found q v h]
  exact remove_at_perm q _ ((find_lt_length_iff q._seq v).2 h) hok

/-- When no element matches the predicate, or the new value does not rank before the first
match, `update_with_if` leaves the queue as it was. -/
theorem update_with_if_unchanged [Inhabited α] [BEq α] (q : PriorityQueue α) (new_value : α)
    (predicate : α → Bool)
    (h : find_if q._seq predicate = q._seq.length ∨
      q._compare new_value (deref q._seq (find_if q._seq predicate)) = false) :
    q.update_with_if new_value predicate = q := by
  unfold update_with_if
  rcases h with h | h
  · have : find_if q._seq (fun v => predicate v) = q._seq.length := h
    simp [this]
  · have : q._compare new_value (deref q._seq (find_if q._seq (fun v => predicate v))) = false := h
    simp [this]

end PriorityQueue

/-! ## Comparators of the worked examples are strict weak orders -/

theorem nat_lt_swo : StrictWeakOrder nat_lt := by
  refine ⟨?_, ?_, ?_⟩
  · intro a; simp [nat_lt]
  · intro a b c; simp only [nat_lt, decide_eq_true_eq]; omega
  · intro a b c; simp only [nat_lt, decide_eq_false_iff_not]; omega

theorem by_fst_swo : StrictWeakOrder by_fst := by
  refine ⟨?_, ?_, ?_⟩
  · intro a; simp [by_fst]
  · intro a b c; simp only [by_fst, decide_eq_true_eq]; omega
  · intro a b c; simp only [by_fst, decide_eq_false_iff_not]; omega

theorem key_lt_iff (a b : Key) :
    Key.lt a b = true ↔ a.first < b.first ∨ (a.first = b.first ∧ a.second < b.second) := by
  unfold Key.lt
  simp only [Bool.or_eq_true, Bool.and_eq_true, decide_eq_true_eq]

theorem key_lt_eq_false_iff (a b : Key) :
    Key.lt a b = false ↔ ¬ (a.first < b.first ∨ (a.first = b.first ∧ a.second < b.second)) := by
  rw [← key_lt_iff]
  cases Key.lt a b <;> simp

/-- The comparator of the engine is a strict weak order, whatever the heuristic and the goal. -/
theorem lp_compare_swo (h : Coordinate → Coordinate → Int) (goal : Coordinate) :
    StrictWeakOrder (lp_compare h goal) := by
  refine ⟨?_, ?_, ?_⟩
  · intro a
    unfold lp_compare
    rw [key_lt_eq_false_iff]
    omega
  · intro a b c
    unfold lp_compare
    simp only [key_lt_iff]
    omega
  · intro a b c
    unfold lp_compare
    simp only [key_lt_eq_false_iff]
    omega

/-- The comparator over the keys as the unit tests pin them down is a strict weak order. -/
theorem lp_compare_tested_swo (h : Coordinate → Coordinate → Int) (goal : Coordinate) :
    StrictWeakOrder (lp_compare_tested h goal) := by
  refine ⟨?_, ?_, ?_⟩
  · intro a
    unfold lp_compare_tested
    rw [key_lt_eq_false_iff]
    omega
  · intro a b c
    unfold lp_compare_tested
    simp only [key_lt_iff]
    omega
  · intro a b c
    unfold lp_compare_tested
    simp only [key_lt_eq_false_iff]
    omega

/-! ## Settled properties -/

section claims

open PriorityQueue

variable [Inhabited α]

/-- Pushing a list into an empty queue and popping as often as was pushed: the run succeeds,
its output is a sorted rearrangement of the list, and the queue ends empty. -/
theorem push_all_pop_n_sorted (compare : α → α → Bool) (hswo : StrictWeakOrder compare)
    (l : List α) :
    ∃ out q1, pop_n l.length ((mk_empty compare).push_all l) = (Except.ok out, q1) ∧
      List.Perm out l ∧ out.Pairwise (fun x y => compare y x = false) ∧ q1._seq = [] := by
  have hc : ((mk_empty compare).push_all l)._compare = compare := push_all_compare _ l
  have hperm := push_all_perm (mk_empty compare) l
  have hheap := push_all_heap_valid (mk_empty compare) l hswo (heap_valid_mk_empty compare)
  obtain ⟨out, q1, hrun, hp, hs, hnil, _⟩ :=
    pop_n_drains l.length ((mk_empty compare).push_all l) (by rw [hc]; exact hswo) hheap
      (by rw [List.Perm.length_eq hperm]; simp [mk_empty])
  refine ⟨out, q1, hrun, ?_, ?_, hnil⟩
  · refine List.Perm.trans hp (List.Perm.trans hperm ?_)
    simp [mk_empty]
  · rw [hc] at hs
    exact hs

/-- C1: for every list of values and every strict-weak-order comparator, pushing the values one
by one into an empty queue and then popping as many times as there were pushes succeeds every
time, returns a permutation of the pushed values in non-decreasing comparator order (no later
output ranks before an earlier one), and leaves the queue empty. -/
theorem C1_push_all_pop_all_sorted (compare : α → α → Bool) (hswo : StrictWeakOrder compare)
    (l : List α) :
    ∃ out q1, pop_n l.length ((mk_empty compare).push_all l) = (Except.ok out, q1) ∧
      List.Perm out l ∧ out.Pairwise (fun x y => compare y x = false) ∧ q1.empty = true := by
  obtain ⟨out, q1, hrun, hp, hs, hnil⟩ := push_all_pop_n_sorted compare hswo l
  exact ⟨out, q1, hrun, hp, hs, (empty_eq_true_iff q1).2 hnil⟩

theorem C1_push_all_pop_all_sorted_witness :
    StrictWeakOrder nat_lt ∧
    ∃ out q1, pop_n [3, 1, 2].length ((mk_empty nat_lt).push_all [3, 1, 2]) = (Except.ok out, q1) ∧
      List.Perm out [3, 1, 2] ∧ out.Pairwise (fun x y => nat_lt y x = false) ∧
      q1.empty = true :=
  ⟨nat_lt_swo, C1_push_all_pop_all_sorted nat_lt nat_lt_swo [3, 1, 2]⟩

/-- C3: on a non-empty queue that satisfies the heap property under a strict-weak-order
comparator, `top` is a minimum (no stored element ranks before it), `pop` returns exactly the
value of `top`, and the stored values after `pop` are the previous ones minus one occurrence of
the returned value, so the size drops by exactly one. -/
theorem C3_top_is_min_and_pop_returns_it (q : PriorityQueue α)
    (hswo : StrictWeakOrder q._compare) (hheap : q.heap_valid) (hne : q.empty = false) :
    ∃ t, q.top = some t ∧ (∀ x ∈ q._seq, q._compare x t = false) ∧ q.pop.1 = Except.ok t ∧
      List.Perm (t :: q.pop.2._seq) q._seq ∧ q.pop.2.size + 1 = q.size := by
  have hnil := (empty_eq_false_iff q).1 hne
  refine ⟨deref q._seq 0, top_eq_deref q hnil, is_heap_root_min_mem hswo q._seq hheap, ?_,
    pop_perm q hnil, pop_length q hnil⟩
  rw [pop_of_ne_nil q hnil]

theorem C3_top_is_min_and_pop_returns_it_witness :
    StrictWeakOrder nat_lt ∧ (PriorityQueue.mk [1, 3, 2] nat_lt).heap_valid ∧
    (PriorityQueue.mk [1, 3, 2] nat_lt).empty = false ∧
    ∃ t, (PriorityQueue.mk [1, 3, 2] nat_lt).top = some t ∧
      (∀ x ∈ [1, 3, 2], nat_lt x t = false) ∧
      (PriorityQueue.mk [1, 3, 2] nat_lt).pop.1 = Except.ok t ∧
      List.Perm (t :: (PriorityQueue.mk [1, 3, 2] nat_lt).pop.2._seq) [1, 3, 2] ∧
      (PriorityQueue.mk [1, 3, 2] nat_lt).pop.2.size + 1 = (PriorityQueue.mk [1, 3, 2] nat_lt).size :=
  have hv : (PriorityQueue.mk [1, 3, 2] nat_lt).heap_valid := by
    unfold heap_valid is_heap
    decide
  ⟨nat_lt_swo, hv, rfl,
    C3_top_is_min_and_pop_returns_it (PriorityQueue.mk [1, 3, 2] nat_lt) nat_lt_swo hv rfl⟩

/-- C4: `pop` fails with the underflow error exactly when the queue is empty; a failing `pop`
leaves the queue as it was (still empty), and `pop` succeeds on every non-empty queue. -/
theorem C4_pop_underflow_iff_empty (q : PriorityQueue α) :
    (q.pop.1 = Except.error (Exception.underflow_error "underflow.") ↔ q.empty = true) ∧
    ((∃ e, q.pop.1 = Except.error e) ↔ q.empty = true) ∧
    (q.empty = true → q.pop.2 = q ∧ q.pop.2.empty = true) ∧
    (q.empty = false → ∃ v, q.pop.1 = Except.ok v) := by
  by_cases h : q._seq = []
  · have he := (empty_eq_true_iff q).2 h
    rw [pop_of_nil q h]
    simp [he]
  · have he := (empty_eq_false_iff q).2 h
    rw [pop_of_ne_nil q h]
    simp [he]

/-- For a value `v` that is not read through a reference to a stored element: after `push v`
on any queue, `contains v` is true (equality by value being reflexive), the size has grown by
exactly one, and the stored values are the previous ones plus one occurrence of `v`. -/
theorem push_adds_exactly_one [BEq α] (q : PriorityQueue α) (v : α)
    (hrefl : ∀ x : α, (x == x) = true) :
    (q.push v).contains v = true ∧ (q.push v).size = q.size + 1 ∧
      List.Perm (q.push v)._seq (v :: q._seq) := by
  exact ⟨push_contains q v hrefl, push_length q v, push_perm q v⟩

/-- C6: when no stored element is equal by value to `v`, `remove v` leaves the queue, stored
sequence included, exactly as it was; when some stored element is equal to `v`, `remove v`
makes the size drop by exactly one. -/
theorem C6_remove_frame_and_size [BEq α] (q : PriorityQueue α) (v : α) :
    ((∀ x ∈ q._seq, (x == v) = false) → (q.remove v)._seq = q._seq ∧ q.remove v = q) ∧
    ((∃ x ∈ q._seq, (x == v) = true) → (q.remove v).size + 1 = q.size) := by
  refine ⟨fun h => ?_, fun h => remove_length_of_found q v h⟩
  rw [remove_of_not_found q v h]
  exact ⟨rfl, rfl⟩

/-- For a value `new` that is not read through a reference to a stored element:
`substitute old new` is `remove old` followed by `push new`; when nothing stored equals `old`
it yields the same queue as `push new` alone and the size grows by one; when something stored
equals `old` the size is unchanged and `contains new` holds afterwards. -/
theorem substitute_by_value [BEq α] (q : PriorityQueue α) (old new : α)
    (hrefl : ∀ x : α, (x == x) = true) :
    q.substitute old new = (q.remove old).push new ∧
    (q.contains old = false →
      q.substitute old new = q.push new ∧ (q.substitute old new).size = q.size + 1) ∧
    (q.contains old = true →
      (q.substitute old new).size = q.size ∧ (q.substitute old new).contains new = true) := by
  refine ⟨rfl, fun h => ?_, fun h => ?_⟩
  · have hq := remove_of_not_found q old ((contains_eq_false_iff q old).1 h)
    unfold substitute
    rw [hq]
    exact ⟨rfl, push_length q new⟩
  · have hl := remove_length_of_found q old ((contains_eq_true_iff q old).1 h)
    unfold substitute
    refine ⟨?_, push_contains (q.remove old) new hrefl⟩
    unfold size
    rw [push_length]
    exact hl

/-- C8: for every non-empty list of values pushed one by one into an empty queue under a
strict-weak-order comparator, the first `pop` returns the earliest pushed value among those that
no pushed value ranks before: nothing pushed ranks before it, and everything pushed earlier
ranks strictly after it. -/
theorem C8_first_pop_is_earliest_minimum (compare : α → α → Bool)
    (hswo : StrictWeakOrder compare) (l : List α) (hne : l ≠ []) :
    ∃ i, i < l.length ∧ ((mk_empty compare).push_all l).pop.1 = Except.ok (deref l i) ∧
      (∀ y ∈ l, compare y (deref l i) = false) ∧
      (∀ j, j < i → compare (deref l i) (deref l j) = true) := by
  obtain ⟨i, hi, hroot, hmin, hfirst⟩ := push_all_root compare hswo l hne
  refine ⟨i, hi, ?_, hmin, hfirst⟩
  have hperm := push_all_perm (mk_empty compare) l
  have hqne : ((mk_empty compare).push_all l)._seq ≠ [] := by
    intro he
    rw [he] at hperm
    have := List.Perm.length_eq hperm
    simp [mk_empty] at this
    exact hne (List.length_eq_zero.1 this.symm)
  rw [pop_of_ne_nil _ hqne, hroot]

theorem C8_first_pop_is_earliest_minimum_witness :
    StrictWeakOrder by_fst ∧ [(2, 0), (1, 1), (1, 2)] ≠ ([] : List (Nat × Nat)) ∧
    ∃ i, i < [(2, 0), (1, 1), (1, 2)].length ∧
      ((mk_empty by_fst).push_all [(2, 0), (1, 1), (1, 2)]).pop.1
        = Except.ok (deref [(2, 0), (1, 1), (1, 2)] i) ∧
      (∀ y ∈ [(2, 0), (1, 1), (1, 2)], by_fst y (deref [(2, 0), (1, 1), (1, 2)] i) = false) ∧
      (∀ j, j < i → by_fst (deref [(2, 0), (1, 1), (1, 2)] i)
        (deref [(2, 0), (1, 1), (1, 2)] j) = true) :=
  ⟨by_fst_swo, by decide,
    C8_first_pop_is_earliest_minimum by_fst by_fst_swo [(2, 0), (1, 1), (1, 2)] (by decide)⟩

end claims

section claims_on_examples

open PriorityQueue

/-- C2: evaluation of `remove` where it goes wrong.  Under `by_fst` the values `(1,0)` and
`(1,1)` rank equal.  After `push (1,0)` and `push (1,1)` the stored sequence is
`[(1,0), (1,1)]` and `contains (1,1)` holds; `remove (1,1)` finds the value at the last
position, `sift_up` from that position swaps it with its equally ranked parent, and the final
`resize` drops the parent instead: `(1,1)` is still stored and `(1,0)` is gone. -/
theorem C2_remove_at_tail_drops_parent :
    (((mk_empty by_fst).push (1, 0)).push (1, 1))._seq = [(1, 0), (1, 1)] ∧
    (((mk_empty by_fst).push (1, 0)).push (1, 1)).contains (1, 1) = true ∧
    ((((mk_empty by_fst).push (1, 0)).push (1, 1)).remove (1, 1))._seq = [(1, 1)] ∧
    ((((mk_empty by_fst).push (1, 0)).push (1, 1)).remove (1, 1)).contains (1, 1) = true ∧
    ((((mk_empty by_fst).push (1, 0)).push (1, 1)).remove (1, 1)).contains (1, 0) = false := by
  decide

/-- C7: evaluation of `update_with_if` where it goes wrong.  After `push (1,0)` and
`push (1,1)` under `by_fst` the queue is the heap `[(1,0), (1,1)]`.  The first element matching
the predicate "equals `(1,1)`" is `(1,1)` itself and the new value `(0,5)` ranks before it, so
the update goes ahead; the removal inside `substitute` drops `(1,0)` instead of `(1,1)`, and
the result stores `(0,5)` and `(1,1)`. -/
theorem C7_update_with_if_replaces_wrong_element :
    (((mk_empty by_fst).push (1, 0)).push (1, 1))._seq = [(1, 0), (1, 1)] ∧
    (((mk_empty by_fst).push (1, 0)).push (1, 1)).heap_valid ∧
    find_if [(1, 0), (1, 1)] (fun x => x == ((1, 1) : Nat × Nat)) = 1 ∧
    by_fst (0, 5) (1, 1) = true ∧
    ((((mk_empty by_fst).push (1, 0)).push (1, 1)).update_with_if (0, 5)
      (fun x => x == (1, 1)))._seq = [(0, 5), (1, 1)] := by
  refine ⟨by decide, ?_, by decide, by decide, by decide⟩
  exact push_heap_valid _ _ by_fst_swo
    (push_heap_valid _ _ by_fst_swo (heap_valid_mk_empty by_fst))

/-- C8: three values of equal rank under `by_fst`, pushed in the order `(1,0)`, `(1,1)`,
`(1,2)`, are popped in the order `(1,0)`, `(1,2)`, `(1,1)`: the value pushed second comes out
after the value pushed third. -/
theorem C8_equal_rank_not_fifo :
    by_fst (1, 1) (1, 2) = false ∧ by_fst (1, 2) (1, 1) = false ∧
    (pop_n 3 ((mk_empty by_fst).push_all [(1, 0), (1, 1), (1, 2)])).1
      = Except.ok [(1, 0), (1, 2), (1, 1)] := by
  refine ⟨by decide, by decide, ?_⟩
  rfl

end claims_on_examples

/-! ## Settled properties: searching, resetting, index helpers -/

section claims_search_reset

open PriorityQueue

theorem any_eq_true_iff (q : PriorityQueue α) (p : α → Bool) :
    q.any p = true ↔ ∃ x ∈ q._seq, p x = true := by
  unfold PriorityQueue.any
  exact List.any_eq_true

theorem contains_eq_any [BEq α] (q : PriorityQueue α) (v : α) :
    q.contains v = q.any (fun x => x == v) := by
  cases h : q.any (fun x => x == v) with
  | true => exact (contains_eq_true_iff q v).2 ((any_eq_true_iff q _).1 h)
  | false =>
    rw [contains_eq_false_iff]
    intro x hx
    cases hxv : (x == v) with
    | false => rfl
    | true =>
      have := (any_eq_true_iff q (fun x => x == v)).2 ⟨x, hx, hxv⟩
      rw [h] at this
      cases this

theorem reset_with_eq (q : PriorityQueue α) (c : α → α → Bool) :
    q.reset_with c = mk_empty c := rfl

/-- C11: for every queue, value `v` and predicate `p`, `contains v` is true exactly when some
stored element is equal by value to `v`, `any p` is true exactly when some stored element
satisfies `p`, so `contains v` is `any` of the predicate "equals `v`", and both are false on an
empty queue. -/
theorem C11_contains_and_any [BEq α] (q : PriorityQueue α) (v : α) (p : α → Bool) :
    (q.contains v = true ↔ ∃ x ∈ q._seq, (x == v) = true) ∧
    (q.any p = true ↔ ∃ x ∈ q._seq, p x = true) ∧
    q.contains v = q.any (fun x => x == v) ∧
    (q.empty = true → q.contains v = false ∧ q.any p = false) := by
  refine ⟨contains_eq_true_iff q v, any_eq_true_iff q p, contains_eq_any q v, fun he => ?_⟩
  have hnil := (empty_eq_true_iff q).1 he
  refine ⟨(contains_eq_false_iff q v).2 ?_, ?_⟩
  · intro x hx
    rw [hnil] at hx
    cases hx
  · unfold PriorityQueue.any
    rw [hnil]
    rfl

/-- C12: after `reset()` or `reset(cmp)` on any queue the queue is empty, its size is `0`,
`contains v` is false for every `v` and a following `pop` fails with the underflow error;
`reset()` keeps the comparator, `reset(cmp)` installs `cmp`, and after `reset(cmp)` with a
strict weak order `cmp` pushing any list and popping as often returns the list sorted by `cmp`,
whatever comparator the queue had before. -/
theorem C12_reset_empties [Inhabited α] [BEq α] (q : PriorityQueue α) (cmp : α → α → Bool)
    (hswo : StrictWeakOrder cmp) (v : α) (l : List α) :
    (q.reset.empty = true ∧ q.reset.size = 0 ∧ q.reset.contains v = false ∧
      q.reset.pop.1 = Except.error (Exception.underflow_error "underflow.") ∧
      q.reset._compare = q._compare) ∧
    ((q.reset_with cmp).empty = true ∧ (q.reset_with cmp).size = 0 ∧
      (q.reset_with cmp).contains v = false ∧
      (q.reset_with cmp).pop.1 = Except.error (Exception.underflow_error "underflow.") ∧
      (q.reset_with cmp)._compare = cmp) ∧
    ∃ out q1, pop_n l.length ((q.reset_with cmp).push_all l) = (Except.ok out, q1) ∧
      List.Perm out l ∧ out.Pairwise (fun x y => cmp y x = false) ∧ q1.empty = true := by
  refine ⟨⟨rfl, rfl, ?_, ?_, rfl⟩, ⟨rfl, rfl, ?_, ?_, rfl⟩, ?_⟩
  · rw [contains_eq_false_iff]
    intro x hx
    cases hx
  · rw [pop_of_nil q.reset rfl]
  · rw [contains_eq_false_iff]
    intro x hx
    cases hx
  · rw [pop_of_nil (q.reset_with cmp) rfl]
  · rw [reset_with_eq]
    obtain ⟨out, q1, hrun, hp, hs, hnil⟩ := push_all_pop_n_sorted cmp hswo l
    exact ⟨out, q1, hrun, hp, hs, (empty_eq_true_iff q1).2 hnil⟩

theorem C12_reset_empties_witness :
    StrictWeakOrder nat_lt ∧
    (((PriorityQueue.mk [5, 3, 4] (fun a b => nat_lt b a)).reset.empty = true ∧
      (PriorityQueue.mk [5, 3, 4] (fun a b => nat_lt b a)).reset.size = 0 ∧
      (PriorityQueue.mk [5, 3, 4] (fun a b => nat_lt b a)).reset.contains 3 = false ∧
      (PriorityQueue.mk [5, 3, 4] (fun a b => nat_lt b a)).reset.pop.1
        = Except.error (Exception.underflow_error "underflow.") ∧
      (PriorityQueue.mk [5, 3, 4] (fun a b => nat_lt b a)).reset._compare
        = (PriorityQueue.mk [5, 3, 4] (fun a b => nat_lt b a))._compare) ∧
    (((PriorityQueue.mk [5, 3, 4] (fun a b => nat_lt b a)).reset_with nat_lt).empty = true ∧
      ((PriorityQueue.mk [5, 3, 4] (fun a b => nat_lt b a)).reset_with nat_lt).size = 0 ∧
      ((PriorityQueue.mk [5, 3, 4] (fun a b => nat_lt b a)).reset_with nat_lt).contains 3 = false ∧
      ((PriorityQueue.mk [5, 3, 4] (fun a b => nat_lt b a)).reset_with nat_lt).pop.1
        = Except.error (Exception.underflow_error "underflow.") ∧
      ((PriorityQueue.mk [5, 3, 4] (fun a b => nat_lt b a)).reset_with nat_lt)._compare
        = nat_lt) ∧
    ∃ out q1, pop_n [3, 1, 2].length
        (((PriorityQueue.mk [5, 3, 4] (fun a b => nat_lt b a)).reset_with nat_lt).push_all
          [3, 1, 2]) = (Except.ok out, q1) ∧
      List.Perm out [3, 1, 2] ∧ out.Pairwise (fun x y => nat_lt y x = false) ∧
      q1.empty = true) :=
  ⟨nat_lt_swo,
    C12_reset_empties (PriorityQueue.mk [5, 3, 4] (fun a b => nat_lt b a)) nat_lt nat_lt_swo 3
      [3, 1, 2]⟩

/-- C18: over a range of length `n`, `left_child` of index `i` is `2i+1` when that is below `n`
and the end position `n` otherwise, `right_child` is `2i+2` when that is below `n` and `n`
otherwise, neither is ever beyond `n`, and a child below `n` has `i` as its `parent`. -/
theorem C18_index_helpers (n i : Nat) :
    left_child n i = (if 2 * i + 1 < n then 2 * i + 1 else n) ∧ left_child n i ≤ n ∧
    right_child n i = (if 2 * i + 2 < n then 2 * i + 2 else n) ∧ right_child n i ≤ n ∧
    (left_child n i < n → parent (left_child n i) = i) ∧
    (right_child n i < n → parent (right_child n i) = i) := by
  rw [left_child_eq, right_child_eq]
  unfold parent
  refine ⟨rfl, ?_, rfl, ?_, ?_, ?_⟩ <;> split_ifs <;> omega

end claims_search_reset

/-! ## Termination of the loops and the outcome of `sift_up` -/

section loops

variable [Inhabited α]

theorem heapify_run_stop (compare : α → α → Bool) (a : List α) (n k : Nat)
    (h : max_min compare a n k = k) : heapify_run compare a n k = (a, [k]) := by
  rw [heapify_run]
  simp [h]

theorem heapify_run_step (compare : α → α → Bool) (a : List α) (n k : Nat)
    (h : max_min compare a n k ≠ k) :
    heapify_run compare a n k
      = ((heapify_run compare (swap a (max_min compare a n k) k) n (max_min compare a n k)).1,
          k :: (heapify_run compare (swap a (max_min compare a n k) k) n
            (max_min compare a n k)).2) := by
  rw [heapify_run]
  simp [Ne.symm h]

/-- The recording loop leaves the vector that `heapify` leaves. -/
theorem heapify_run_fst (compare : α → α → Bool) (a : List α) (n k : Nat) :
    (heapify_run compare a n k).1 = heapify compare a n k := by
  generalize hd : n - k = d
  induction d using Nat.strong_induction_on generalizing a k with
  | _ d ih =>
    subst hd
    by_cases hm : max_min compare a n k = k
    · rw [heapify_run_stop _ _ _ _ hm, heapify_stop _ _ _ _ hm]
    · have hr := max_min_range compare a n k hm
      rw [heapify_run_step _ _ _ _ hm, heapify_step _ _ _ _ hm]
      exact ih (n - max_min compare a n k) (by omega) _ _ rfl

/-- The positions taken by `heapify` from `k < n` stay in `[k, n)`, strictly increase, and are
at most `n - k` many. -/
theorem heapify_run_trace (compare : α → α → Bool) (a : List α) (n k : Nat) (hk : k < n) :
    (∀ p ∈ (heapify_run compare a n k).2, k ≤ p ∧ p < n) ∧
      (heapify_run compare a n k).2.Pairwise (fun x y => x < y) ∧
      (heapify_run compare a n k).2.length ≤ n - k := by
  generalize hd : n - k = d
  induction d using Nat.strong_induction_on generalizing a k with
  | _ d ih =>
    subst hd
    by_cases hm : max_min compare a n k = k
    · rw [heapify_run_stop _ _ _ _ hm]
      refine ⟨?_, List.pairwise_singleton _ _, ?_⟩
      · intro p hp
        rw [List.mem_singleton.1 hp]
        exact ⟨Nat.le_refl _, hk⟩
      · simp only [List.length_singleton]
        omega
    · have hr := max_min_range compare a n k hm
      rw [heapify_run_step _ _ _ _ hm]
      obtain ⟨h1, h2, h3⟩ :=
        ih (n - max_min compare a n k) (by omega) (swap a (max_min compare a n k) k)
          (max_min compare a n k) hr.1 rfl
      refine ⟨?_, ?_, ?_⟩
      · intro p hp
        rcases List.mem_cons.1 hp with hp | hp
        · rw [hp]; exact ⟨Nat.le_refl _, hk⟩
        · have := h1 p hp
          omega
      · rw [List.pairwise_cons]
        refine ⟨?_, h2⟩
        intro p hp
        have := h1 p hp
        omega
      · simp only [List.length_cons]
        omega

theorem heapify_touched_lt (n p : Nat) (hp : p < n) : ∀ t ∈ heapify_touched n p, t < n := by
  intro t ht
  unfold heapify_touched at ht
  rw [left_child_eq, right_child_eq] at ht
  simp only [List.mem_cons, List.mem_append] at ht
  rcases ht with ht | ht | ht
  · omega
  · split_ifs at ht <;> simp at ht <;> omega
  · split_ifs at ht <;> simp at ht <;> omega

theorem sift_up_run_stop (compare : α → α → Bool) (a : List α) (c : Nat)
    (h : is_needed compare a c = false) : sift_up_run compare a c = (a, [c]) := by
  rw [sift_up_run]
  simp [h]

theorem sift_up_run_step (compare : α → α → Bool) (a : List α) (c : Nat)
    (h : is_needed compare a c = true) :
    sift_up_run compare a c
      = ((sift_up_run compare (swap a (parent c) c) (parent c)).1,
          c :: (sift_up_run compare (swap a (parent c) c) (parent c)).2) := by
  rw [sift_up_run]
  simp [h]

/-- The recording loop leaves the vector that the loop of `sift_up` leaves. -/
theorem sift_up_run_fst (compare : α → α → Bool) (a : List α) (c : Nat) :
    (sift_up_run compare a c).1 = sift_up_loop compare a c := by
  induction c using Nat.strong_induction_on generalizing a with
  | _ c ih =>
    cases h : is_needed compare a c with
    | false => rw [sift_up_run_stop _ _ _ h, sift_up_loop_stop _ _ _ h]
    | true =>
      rw [sift_up_run_step _ _ _ h, sift_up_loop_step _ _ _ h]
      exact ih (parent c) (parent_lt (is_needed_pos _ _ _ h)) _

/-- The positions taken by `sift_up` from `c` never exceed `c`, strictly decrease, and are at
most `c + 1` many. -/
theorem sift_up_run_trace (compare : α → α → Bool) (a : List α) (c : Nat) :
    (∀ p ∈ (sift_up_run compare a c).2, p ≤ c) ∧
      (sift_up_run compare a c).2.Pairwise (fun x y => y < x) ∧
      (sift_up_run compare a c).2.length ≤ c + 1 := by
  induction c using Nat.strong_induction_on generalizing a with
  | _ c ih =>
    cases h : is_needed compare a c with
    | false =>
      rw [sift_up_run_stop _ _ _ h]
      refine ⟨?_, List.pairwise_singleton _ _, by simp⟩
      intro p hp
      rw [List.mem_singleton.1 hp]
    | true =>
      have hp := parent_lt (is_needed_pos _ _ _ h)
      rw [sift_up_run_step _ _ _ h]
      obtain ⟨h1, h2, h3⟩ := ih (parent c) hp (swap a (parent c) c)
      refine ⟨?_, ?_, ?_⟩
      · intro p hq
        rcases List.mem_cons.1 hq with hq | hq
        · rw [hq]
        · have := h1 p hq
          omega
      · rw [List.pairwise_cons]
        refine ⟨?_, h2⟩
        intro p hq
        have := h1 p hq
        omega
      · simp only [List.length_cons]
        omega

theorem sift_up_touched_lt (n p : Nat) (hp : p < n) : ∀ t ∈ sift_up_touched p, t < n := by
  intro t ht
  unfold sift_up_touched at ht
  split_ifs at ht with h0
  · have := parent_lt (Nat.pos_of_ne_zero h0)
    simp only [List.mem_cons, List.mem_singleton, List.not_mem_nil, or_false] at ht
    omega
  · cases ht

/-- C16: for every range of length `n`, every start position `curr < n` and any comparator
whatsoever, the loop of `heapify` takes strictly increasing positions, all below `n`, hence at
most `n - curr` rounds, and the loop of `sift_up` takes strictly decreasing positions, hence at
most `curr + 1` rounds ending at the root at the latest; every position either loop can
dereference lies in `[0, n)`.  Both loops are total functions and the recorded runs leave the
vectors that `heapify` and `sift_up` leave. -/
theorem C16_loops_terminate_in_range (compare : α → α → Bool) (a : List α) (n curr : Nat)
    (hc : curr < n) :
    ((heapify_run compare a n curr).1 = heapify compare a n curr ∧
      (heapify_run compare a n curr).2.Pairwise (fun x y => x < y) ∧
      (heapify_run compare a n curr).2.length ≤ n - curr ∧
      ∀ p ∈ (heapify_run compare a n curr).2, p < n ∧ ∀ t ∈ heapify_touched n p, t < n) ∧
    ((sift_up_run compare a curr).1 = (sift_up compare a curr).2 ∧
      (sift_up_run compare a curr).2.Pairwise (fun x y => y < x) ∧
      (sift_up_run compare a curr).2.length ≤ curr + 1 ∧
      ∀ p ∈ (sift_up_run compare a curr).2, p < n ∧ ∀ t ∈ sift_up_touched p, t < n) := by
  obtain ⟨h1, h2, h3⟩ := heapify_run_trace compare a n curr hc
  obtain ⟨s1, s2, s3⟩ := sift_up_run_trace compare a curr
  refine ⟨⟨heapify_run_fst compare a n curr, h2, h3, ?_⟩, ⟨?_, s2, s3, ?_⟩⟩
  · intro p hp
    exact ⟨(h1 p hp).2, heapify_touched_lt n p (h1 p hp).2⟩
  · rw [sift_up_run_fst]
    unfold sift_up
    cases h : is_needed compare a curr with
    | false => simp [sift_up_loop_stop _ _ _ h]
    | true => simp
  · intro p hp
    have := s1 p hp
    exact ⟨by omega, sift_up_touched_lt n p (by omega)⟩

theorem C16_loops_terminate_in_range_witness :
    (2 : Nat) < 6 ∧
    ((heapify_run nat_lt [9, 8, 1, 7, 6, 0] 6 2).1 = heapify nat_lt [9, 8, 1, 7, 6, 0] 6 2 ∧
      (heapify_run nat_lt [9, 8, 1, 7, 6, 0] 6 2).2.Pairwise (fun x y => x < y) ∧
      (heapify_run nat_lt [9, 8, 1, 7, 6, 0] 6 2).2.length ≤ 6 - 2 ∧
      ∀ p ∈ (heapify_run nat_lt [9, 8, 1, 7, 6, 0] 6 2).2,
        p < 6 ∧ ∀ t ∈ heapify_touched 6 p, t < 6) ∧
    ((sift_up_run nat_lt [9, 8, 1, 7, 6, 0] 2).1 = (sift_up nat_lt [9, 8, 1, 7, 6, 0] 2).2 ∧
      (sift_up_run nat_lt [9, 8, 1, 7, 6, 0] 2).2.Pairwise (fun x y => y < x) ∧
      (sift_up_run nat_lt [9, 8, 1, 7, 6, 0] 2).2.length ≤ 2 + 1 ∧
      ∀ p ∈ (sift_up_run nat_lt [9, 8, 1, 7, 6, 0] 2).2,
        p < 6 ∧ ∀ t ∈ sift_up_touched p, t < 6) :=
  ⟨by decide, C16_loops_terminate_in_range nat_lt [9, 8, 1, 7, 6, 0] 6 2 (by decide)⟩

theorem sift_up_snd (compare : α → α → Bool) (a : List α) (c : Nat) :
    (sift_up compare a c).2 = sift_up_loop compare a c := by
  unfold sift_up
  cases h : is_needed compare a c with
  | false => simp [sift_up_loop_stop _ _ _ h]
  | true => simp

theorem sift_up_fst (compare : α → α → Bool) (a : List α) (c : Nat) :
    (sift_up compare a c).1 = is_needed compare a c := by
  unfold sift_up
  cases h : is_needed compare a c <;> simp

theorem is_needed_eq_true_iff (compare : α → α → Bool) (a : List α) (c : Nat) :
    is_needed compare a c = true ↔
      c ≠ 0 ∧ compare (deref a (parent c)) (deref a c) = false := by
  unfold is_needed
  simp

theorem is_needed_eq_false_iff (compare : α → α → Bool) (a : List α) (c : Nat) :
    is_needed compare a c = false ↔
      c = 0 ∨ compare (deref a (parent c)) (deref a c) = true := by
  unfold is_needed
  by_cases h0 : c = 0 <;> simp [h0]

/-- Where the loop of `sift_up` stops, the element it started with sits, and `is_needed` is
false there. -/
theorem sift_up_run_last (compare : α → α → Bool) (a : List α) (c : Nat)
    (hc : c < a.length) :
    ∃ f, (sift_up_run compare a c).2.getLast? = some f ∧ f ≤ c ∧
      deref (sift_up_loop compare a c) f = deref a c ∧
      is_needed compare (sift_up_loop compare a c) f = false := by
  induction c using Nat.strong_induction_on generalizing a with
  | _ c ih =>
    cases h : is_needed compare a c with
    | false =>
      rw [sift_up_run_stop _ _ _ h, sift_up_loop_stop _ _ _ h]
      exact ⟨c, rfl, Nat.le_refl _, rfl, h⟩
    | true =>
      have hp := parent_lt (is_needed_pos _ _ _ h)
      rw [sift_up_run_step _ _ _ h, sift_up_loop_step _ _ _ h]
      obtain ⟨f, hf, hle, hval, hstop⟩ :=
        ih (parent c) hp (swap a (parent c) c) (by rw [length_swap]; omega)
      refine ⟨f, ?_, by omega, ?_, hstop⟩
      · rw [List.getLast?_cons, hf]
        rfl
      · rw [hval, deref_swap_left a (parent c) c (by omega) hc]

theorem sift_up_run_length_pos (compare : α → α → Bool) (a : List α) (c : Nat) :
    2 ≤ (sift_up_run compare a c).2.length ↔ is_needed compare a c = true := by
  cases h : is_needed compare a c with
  | false =>
    rw [sift_up_run_stop _ _ _ h]
    simp
  | true =>
    rw [sift_up_run_step _ _ _ h]
    have hp := parent_lt (is_needed_pos _ _ _ h)
    have : 1 ≤ (sift_up_run compare (swap a (parent c) c) (parent c)).2.length := by
      cases h2 : is_needed compare (swap a (parent c) c) (parent c) with
      | false => rw [sift_up_run_stop _ _ _ h2]; simp
      | true => rw [sift_up_run_step _ _ _ h2]; simp
    simp only [List.length_cons, iff_true]
    omega

/-- C17: `sift_up` returns true exactly when it performed at least one swap (its run took at
least two positions), which is exactly when `curr` is not the root and the parent of `curr`
does not rank before `curr`; when it returns false the sequence is unchanged; when it returns
true the element that started at `curr` ends at a position where it is the root or its parent
ranks strictly before it.  This holds for any comparator and any content of the ancestors. -/
theorem C17_sift_up_outcome (compare : α → α → Bool) (a : List α) (curr : Nat)
    (hc : curr < a.length) :
    ((sift_up compare a curr).1 = true ↔ 2 ≤ (sift_up_run compare a curr).2.length) ∧
    ((sift_up compare a curr).1 = true ↔
      curr ≠ 0 ∧ compare (deref a (parent curr)) (deref a curr) = false) ∧
    ((sift_up compare a curr).1 = false → (sift_up compare a curr).2 = a) ∧
    ((sift_up compare a curr).1 = true →
      ∃ f, (sift_up_run compare a curr).2.getLast? = some f ∧
        deref (sift_up compare a curr).2 f = deref a curr ∧
        (f = 0 ∨ compare (deref (sift_up compare a curr).2 (parent f))
          (deref (sift_up compare a curr).2 f) = true)) := by
  rw [sift_up_fst, sift_up_snd]
  refine ⟨(sift_up_run_length_pos compare a curr).symm, is_needed_eq_true_iff compare a curr,
    fun h => sift_up_loop_stop compare a curr h, fun _ => ?_⟩
  obtain ⟨f, hf, _, hval, hstop⟩ := sift_up_run_last compare a curr hc
  exact ⟨f, hf, hval, (is_needed_eq_false_iff compare _ f).1 hstop⟩

theorem C17_sift_up_outcome_witness :
    2 < [((1 : Nat), (0 : Nat)), (5, 0), (1, 1), (7, 0)].length ∧
    ((sift_up by_fst [(1, 0), (5, 0), (1, 1), (7, 0)] 2).1 = true ↔
      2 ≤ (sift_up_run by_fst [(1, 0), (5, 0), (1, 1), (7, 0)] 2).2.length) ∧
    ((sift_up by_fst [(1, 0), (5, 0), (1, 1), (7, 0)] 2).1 = true ↔
      2 ≠ 0 ∧ by_fst (deref [(1, 0), (5, 0), (1, 1), (7, 0)] (parent 2))
        (deref [(1, 0), (5, 0), (1, 1), (7, 0)] 2) = false) ∧
    ((sift_up by_fst [(1, 0), (5, 0), (1, 1), (7, 0)] 2).1 = false →
      (sift_up by_fst [(1, 0), (5, 0), (1, 1), (7, 0)] 2).2 = [(1, 0), (5, 0), (1, 1), (7, 0)]) ∧
    ((sift_up by_fst [(1, 0), (5, 0), (1, 1), (7, 0)] 2).1 = true →
      ∃ f, (sift_up_run by_fst [(1, 0), (5, 0), (1, 1), (7, 0)] 2).2.getLast? = some f ∧
        deref (sift_up by_fst [(1, 0), (5, 0), (1, 1), (7, 0)] 2).2 f
          = deref [(1, 0), (5, 0), (1, 1), (7, 0)] 2 ∧
        (f = 0 ∨ by_fst (deref (sift_up by_fst [(1, 0), (5, 0), (1, 1), (7, 0)] 2).2 (parent f))
          (deref (sift_up by_fst [(1, 0), (5, 0), (1, 1), (7, 0)] 2).2 f) = true)) :=
  ⟨by decide, C17_sift_up_outcome by_fst [(1, 0), (5, 0), (1, 1), (7, 0)] 2 (by decide)⟩

end loops

/-! ## Sift-down inside a subtree -/

section subtree

variable [Inhabited α] {compare : α → α → Bool}

theorem in_subtree_le {r i : Nat} (h : in_subtree r i) : r ≤ i := by
  induction h with
  | root => exact Nat.le_refl _
  | child h0 _ ih =>
    have := parent_lt h0
    omega

theorem in_subtree_parent {r i : Nat} (h : in_subtree r i) (hne : i ≠ r) :
    0 < i ∧ in_subtree r (parent i) := by
  cases h with
  | root => exact absurd rfl hne
  | child h0 hp => exact ⟨h0, hp⟩

/-- The subtree of a child lies in the subtree of its parent. -/
theorem in_subtree_of_child {k m j : Nat} (hm : 0 < m) (hp : parent m = k)
    (h : in_subtree m j) : in_subtree k j := by
  induction h with
  | root => exact in_subtree.child hm (by rw [hp]; exact in_subtree.root)
  | child h0 _ ih => exact in_subtree.child h0 ih

theorem in_subtree_trans {r k j : Nat} (hrk : in_subtree r k) (hkj : in_subtree k j) :
    in_subtree r j := by
  induction hkj with
  | root => exact hrk
  | child h0 _ ih => exact in_subtree.child h0 ih

theorem in_subtree_zero (i : Nat) : in_subtree 0 i := by
  induction i using Nat.strong_induction_on with
  | _ i ih =>
    by_cases h0 : i = 0
    · subst h0; exact in_subtree.root
    · exact in_subtree.child (Nat.pos_of_ne_zero h0)
        (ih (parent i) (parent_lt (Nat.pos_of_ne_zero h0)))

/-- Sift-down at `k` writes no position outside the subtree rooted at `k`. -/
theorem heapify_frame_subtree (compare : α → α → Bool) (a : List α) (n k : Nat) :
    ∀ j, ¬ in_subtree k j → deref (heapify compare a n k) j = deref a j := by
  generalize hd : n - k = d
  induction d using Nat.strong_induction_on generalizing a k with
  | _ d ih =>
    subst hd
    intro j hj
    by_cases hm : max_min compare a n k = k
    · rw [heapify_stop _ _ _ _ hm]
    · rw [heapify_step _ _ _ _ hm]
      obtain ⟨hmn, hkm, hpm⟩ := max_min_range compare a n k hm
      have hjm : ¬ in_subtree (max_min compare a n k) j :=
        fun h => hj (in_subtree_of_child (by omega) hpm h)
      have hjk : j ≠ k := by
        intro he; subst he; exact hj in_subtree.root
      have hjm2 : j ≠ max_min compare a n k := by
        intro he; rw [he] at hjm; exact hjm in_subtree.root
      rw [ih (n - max_min compare a n k) (by omega) _ _ rfl j hjm,
        deref_swap_other a _ _ j hjm2 hjk]

/-- Sift-down at `k` repairs the subtree rooted at `r` when its only defect is at `k`. -/
theorem heapify_subtree_heap (hswo : StrictWeakOrder compare) (a : List α) (n r k : Nat)
    (hn : n ≤ a.length) (hrk : in_subtree r k) (h : subtree_except compare a n r k) :
    subtree_heap compare (heapify compare a n k) n r := by
  generalize hd : n - k = d
  induction d using Nat.strong_induction_on generalizing a k with
  | _ d ih =>
    subst hd
    by_cases hm : max_min compare a n k = k
    · rw [heapify_stop _ _ _ _ hm]
      intro i hi hsub hir
      by_cases hp : parent i = k
      · have := max_min_stop a n k hm i hi (in_subtree_parent hsub hir).1 hp
        rw [hp]; exact this
      · exact h.1 i hi hsub hir hp
    · rw [heapify_step _ _ _ _ hm]
      obtain ⟨hmn, hkm, hpm⟩ := max_min_range compare a n k hm
      obtain ⟨hsel, hmin⟩ := max_min_step hswo a n k hm
      generalize max_min compare a n k = m at *
      have hml : m < a.length := by omega
      have hkl : k < a.length := by omega
      have hrm : in_subtree r m := in_subtree.child (by omega) (by rw [hpm]; exact hrk)
      have hrle := in_subtree_le hrk
      apply ih (n - m) (by omega) _ _ (by rw [length_swap]; exact hn) hrm _ rfl
      constructor
      · intro i hi hsub hir hpi
        have hi0 := (in_subtree_parent hsub hir).1
        by_cases him : i = m
        · subst him
          rw [hpm, deref_swap_left a i k hml hkl, deref_swap_right a i k hkl]
          exact hswo.asymm hsel
        · by_cases hik : i = k
          · subst hik
            have hpk := parent_lt hi0
            rw [deref_swap_right a m i hkl,
              deref_swap_other a m i (parent i) (by omega) (by omega)]
            exact h.2 hir m hmn (by omega) hpm
          · rw [deref_swap_other a m k i him hik]
            by_cases hpk : parent i = k
            · rw [hpk, deref_swap_right a m k hkl]
              exact hmin i hi hi0 hpk
            · rw [deref_swap_other a m k (parent i) hpi hpk]
              exact h.1 i hi hsub hir hpk
      · intro _ c hc hc0 hpc
        have hcm := parent_lt hc0
        rw [hpm, deref_swap_right a m k hkl, deref_swap_other a m k c (by omega) (by omega)]
        have hsubc : in_subtree r c := in_subtree.child hc0 (by rw [hpc]; exact hrm)
        have := h.1 c hc hsubc (by omega) (by omega)
        rw [hpc] at this
        exact this

/-- The part of a vector from `n` on is not touched by sift-down on `[0, n)`. -/
theorem heapify_drop (compare : α → α → Bool) (a : List α) (n k : Nat) :
    (heapify compare a n k).drop n = a.drop n := by
  apply List.ext_getElem
  · simp only [List.length_drop, heapify_length]
  · intro i h1 h2
    simp only [List.length_drop, heapify_length] at h1 h2
    rw [List.getElem_drop, List.getElem_drop]
    have := heapify_frame compare a n k (n + i) (by omega)
    rw [deref_eq_getElem _ _ (by rw [heapify_length]; omega),
      deref_eq_getElem _ _ (by omega)] at this
    exact this

/-- Sift-down on `[0, n)` rearranges the range `[0, n)`. -/
theorem heapify_perm_take (compare : α → α → Bool) (a : List α) (n k : Nat)
    (hn : n ≤ a.length) : List.Perm ((heapify compare a n k).take n) (a.take n) := by
  have hp2 : List.Perm ((heapify compare a n k).take n ++ a.drop n) (a.take n ++ a.drop n) := by
    have h1 := List.take_append_drop n (heapify compare a n k)
    rw [heapify_drop] at h1
    rw [h1, List.take_append_drop]
    exact heapify_perm compare a n k hn
  exact (List.perm_append_right_iff (a.drop n)).1 hp2

/-- A position below `k` lies in the subtree of the left or of the right child of `k`. -/
theorem in_subtree_children {k i : Nat} (h : in_subtree k i) (hne : i ≠ k) :
    in_subtree (2 * k + 1) i ∨ in_subtree (2 * k + 2) i := by
  induction h with
  | root => exact absurd rfl hne
  | @child j h0 _ ih =>
    by_cases hp : parent j = k
    · rcases (parent_eq_iff h0).1 hp with hj | hj
      · left; rw [hj]; exact in_subtree.root
      · right; rw [hj]; exact in_subtree.root
    · rcases ih hp with hl | hr
      · exact Or.inl (in_subtree.child h0 hl)
      · exact Or.inr (in_subtree.child h0 hr)

theorem subtree_heap_of_ge (compare : α → α → Bool) (a : List α) (n r : Nat) (h : n ≤ r) :
    subtree_heap compare a n r := by
  intro i hi hsub _
  have := in_subtree_le hsub
  omega

/-- C15: for every range of length `n`, position `curr` and strict-weak-order comparator,
if the subtrees rooted at the left and right children of `curr` satisfy the heap property, then
after `heapify` at `curr` the subtree rooted at `curr` satisfies the heap property, the range is
a permutation of its previous contents, and every position outside the subtree rooted at `curr`,
like every position outside the range, holds what it held. -/
theorem C15_heapify_sift_down (hswo : StrictWeakOrder compare) (a : List α) (n curr : Nat)
    (hn : n ≤ a.length)
    (hl : subtree_heap compare a n (left_child n curr))
    (hr : subtree_heap compare a n (right_child n curr)) :
    subtree_heap compare (heapify compare a n curr) n curr ∧
    List.Perm ((heapify compare a n curr).take n) (a.take n) ∧
    (heapify compare a n curr).length = a.length ∧
    (∀ j, ¬ in_subtree curr j ∨ n ≤ j →
      deref (heapify compare a n curr) j = deref a j) := by
  refine ⟨?_, heapify_perm_take compare a n curr hn, heapify_length compare a n curr, ?_⟩
  · apply heapify_subtree_heap hswo a n curr curr hn in_subtree.root
    refine ⟨?_, fun h => absurd rfl h⟩
    intro i hi hsub hic hpi
    have hi0 := (in_subtree_parent hsub hic).1
    have hchild : i ≠ 2 * curr + 1 ∧ i ≠ 2 * curr + 2 := by
      constructor <;> intro he <;> exact hpi ((parent_eq_iff hi0).2 (by omega))
    rcases in_subtree_children hsub hic with hs | hs
    · have hle := in_subtree_le hs
      have hlc : left_child n curr = 2 * curr + 1 := by
        rw [left_child_eq, if_pos (by omega)]
      rw [hlc] at hl
      exact hl i hi hs hchild.1
    · have hle := in_subtree_le hs
      have hrc : right_child n curr = 2 * curr + 2 := by
        rw [right_child_eq, if_pos (by omega)]
      rw [hrc] at hr
      exact hr i hi hs hchild.2
  · intro j hj
    rcases hj with hj | hj
    · exact heapify_frame_subtree compare a n curr j hj
    · exact heapify_frame compare a n curr j hj

theorem subtree_heap_of_heap_from (compare : α → α → Bool) (a : List α) (n k r : Nat)
    (hkr : k ≤ r) (h : heap_from compare a n k) : subtree_heap compare a n r := by
  intro i hi hsub hir
  obtain ⟨hi0, hsubp⟩ := in_subtree_parent hsub hir
  have := in_subtree_le hsubp
  exact h i hi hi0 (by omega)

theorem C15_heapify_sift_down_witness :
    StrictWeakOrder nat_lt ∧ 5 ≤ [9, 1, 2, 3, 4].length ∧
    subtree_heap nat_lt [9, 1, 2, 3, 4] 5 (left_child 5 0) ∧
    subtree_heap nat_lt [9, 1, 2, 3, 4] 5 (right_child 5 0) ∧
    (subtree_heap nat_lt (heapify nat_lt [9, 1, 2, 3, 4] 5 0) 5 0 ∧
      List.Perm ((heapify nat_lt [9, 1, 2, 3, 4] 5 0).take 5) ([9, 1, 2, 3, 4].take 5) ∧
      (heapify nat_lt [9, 1, 2, 3, 4] 5 0).length = [9, 1, 2, 3, 4].length ∧
      (∀ j, ¬ in_subtree 0 j ∨ 5 ≤ j →
        deref (heapify nat_lt [9, 1, 2, 3, 4] 5 0) j = deref [9, 1, 2, 3, 4] j)) :=
  have hf : heap_from nat_lt [9, 1, 2, 3, 4] 5 1 := by
    unfold heap_from
    decide
  have hl : subtree_heap nat_lt [9, 1, 2, 3, 4] 5 (left_child 5 0) :=
    subtree_heap_of_heap_from nat_lt [9, 1, 2, 3, 4] 5 1 1 (by decide) hf
  have hr : subtree_heap nat_lt [9, 1, 2, 3, 4] 5 (right_child 5 0) :=
    subtree_heap_of_heap_from nat_lt [9, 1, 2, 3, 4] 5 1 2 (by decide) hf
  ⟨nat_lt_swo, by decide, hl, hr,
    C15_heapify_sift_down nat_lt_swo [9, 1, 2, 3, 4] 5 0 (by decide) hl hr⟩

/-! ## Building a heap -/

/-- One call of `heapify` at `k` extends the heap-ordered part of the range from the positions
after `k` to the positions from `k` on. -/
theorem heapify_heap_from (hswo : StrictWeakOrder compare) (a : List α) (n k : Nat)
    (hn : n ≤ a.length) (h : heap_from compare a n (k + 1)) :
    heap_from compare (heapify compare a n k) n k := by
  have hsub : subtree_heap compare (heapify compare a n k) n k := by
    apply heapify_subtree_heap hswo a n k k hn in_subtree.root
    refine ⟨?_, fun hk => absurd rfl hk⟩
    intro i hi hs hik hpi
    obtain ⟨hi0, hsp⟩ := in_subtree_parent hs hik
    have := in_subtree_le hsp
    exact h i hi hi0 (by omega)
  intro i hi hi0 hkp
  by_cases hs : in_subtree k i
  · have hpl := parent_lt hi0
    exact hsub i hi hs (by omega)
  · have hsp : ¬ in_subtree k (parent i) := fun hp => hs (in_subtree.child hi0 hp)
    have hpk : parent i ≠ k := by
      intro he; rw [he] at hsp; exact hsp in_subtree.root
    rw [heapify_frame_subtree compare a n k i hs,
      heapify_frame_subtree compare a n k (parent i) hsp]
    exact h i hi hi0 (by omega)

theorem build_heap_loop_length (compare : α → α → Bool) (n k : Nat) (a : List α) :
    (build_heap_loop compare n k a).length = a.length := by
  induction k generalizing a with
  | zero => exact heapify_length compare a n 0
  | succ k ih =>
    rw [build_heap_loop, ih, heapify_length]

theorem build_heap_loop_perm (compare : α → α → Bool) (n k : Nat) (a : List α)
    (hn : n ≤ a.length) : List.Perm (build_heap_loop compare n k a) a := by
  induction k generalizing a with
  | zero => exact heapify_perm compare a n 0 hn
  | succ k ih =>
    rw [build_heap_loop]
    exact List.Perm.trans (ih _ (by rw [heapify_length]; exact hn))
      (heapify_perm compare a n (k + 1) hn)

/-- The loop of `build_heap` from `k` down to the root turns a range that is heap-ordered after
`k` into a heap. -/
theorem build_heap_loop_is_heap (hswo : StrictWeakOrder compare) (n k : Nat) (a : List α)
    (hn : n ≤ a.length) (h : heap_from compare a n (k + 1)) :
    is_heap compare (build_heap_loop compare n k a) n := by
  induction k generalizing a with
  | zero =>
    have := heapify_heap_from hswo a n 0 hn h
    intro i hi hi0
    exact this i hi hi0 (Nat.zero_le _)
  | succ k ih =>
    rw [build_heap_loop]
    exact ih _ (by rw [heapify_length]; exact hn) (heapify_heap_from hswo a n (k + 1) hn h)

theorem build_heap_start_neg_iff (n : Nat) : build_heap_start n < 0 ↔ n < 2 := by
  unfold build_heap_start
  omega

/-- Before `first` the left child computed by the source lies before `first` as well, so it is
not `last` and gets dereferenced. -/
theorem left_child_at_neg (n : Nat) (it : Int) (h : it < 0) :
    left_child_at n it < 0 ∧ left_child_at n it ≠ (n : Int) := by
  unfold left_child_at
  simp only
  split_ifs <;> omega

/-- At and after `first` the signed left child is the one of `left_child`. -/
theorem left_child_at_ofNat (n i : Nat) : left_child_at n (i : Int) = (left_child n i : Int) := by
  unfold left_child_at left_child
  simp only
  split_ifs <;> omega

/-- On a range of at least two elements `build_heap` is defined and turns the range into a heap
holding the same values. -/
theorem build_heap_of_two_le (hswo : StrictWeakOrder compare) (a : List α)
    (h2 : 2 ≤ a.length) :
    ∃ s, build_heap compare a a.length = some s ∧ List.Perm s a ∧
      is_heap compare s a.length := by
  have hneg : ¬ build_heap_start a.length < 0 := by
    rw [build_heap_start_neg_iff]; omega
  refine ⟨build_heap_loop compare a.length (build_heap_start a.length).toNat a, ?_, ?_, ?_⟩
  · unfold build_heap
    rw [if_neg hneg]
  · exact build_heap_loop_perm compare _ _ a (Nat.le_refl _)
  · apply build_heap_loop_is_heap hswo _ _ a (Nat.le_refl _)
    intro i hi hi0 hk
    have hk2 : ((build_heap_start a.length).toNat : Int) + 1 = (a.length : Int) / 2 := by
      unfold build_heap_start at hneg ⊢
      omega
    have hp : parent i = (i - 1) / 2 := rfl
    omega

end subtree

/-! ## Construction from a list -/

section construction

open PriorityQueue

variable [Inhabited α]

/-- From a list of at least two values the constructors yield a heap-valid queue holding the
same values. -/
theorem of_list_of_two_le {compare : α → α → Bool} (hswo : StrictWeakOrder compare)
    (l : List α) (h2 : 2 ≤ l.length) :
    ∃ q, of_list l compare = some q ∧ List.Perm q._seq l ∧ q.heap_valid ∧
      q._compare = compare := by
  obtain ⟨s, hs, hperm, hheap⟩ := build_heap_of_two_le hswo l h2
  have hne : l.isEmpty = false := by
    cases l with
    | nil => simp at h2
    | cons x t => rfl
  refine ⟨PriorityQueue.mk s compare, ?_, hperm, ?_, rfl⟩
  · unfold of_list
    rw [hne, hs]
    rfl
  · unfold heap_valid
    rw [List.Perm.length_eq hperm]
    exact hheap

theorem of_list_nil (compare : α → α → Bool) :
    of_list ([] : List α) compare = some (PriorityQueue.mk [] compare) := rfl

/-- C14: construction from a list of exactly one element.  `build_heap` starts its loop at the
signed offset `size / 2 - 1 = -1`, one position before `first`; the first call of `heapify`
computes the left child `-1`, which is not `last`, and so dereferences position `-1` outside
the stored sequence; the loop counter, only ever decremented from `-1`, never equals `first`.
The outcome of `build_heap`, and of the constructors, is undefined for every one-element
list and every comparator. -/
theorem C14_one_element_build_heap_out_of_range (compare : α → α → Bool) (x : α) :
    build_heap_start [x].length = -1 ∧
    left_child_at [x].length (build_heap_start [x].length) = -1 ∧
    left_child_at [x].length (build_heap_start [x].length) ≠ ([x].length : Int) ∧
    (∀ k : Nat, build_heap_start [x].length - (k : Int) ≠ 0) ∧
    build_heap compare [x] [x].length = none ∧
    of_list [x] compare = none := by
  have hstart : build_heap_start [x].length = -1 := by
    show build_heap_start 1 = -1
    decide
  have hbuild : build_heap compare [x] [x].length = none := by
    unfold build_heap
    rw [if_pos (by rw [hstart]; decide)]
  refine ⟨hstart, ?_, ?_, ?_, hbuild, ?_⟩
  · rw [hstart]
    show left_child_at 1 (-1) = -1
    decide
  · rw [hstart]
    show left_child_at 1 (-1) ≠ 1
    decide
  · intro k
    rw [hstart]
    omega
  · unfold of_list
    rw [hbuild]
    rfl

end construction

/-! ## The heap property after removal -/

section removal

open PriorityQueue

variable [Inhabited α] {compare : α → α → Bool}

/-- The loop of `sift_up` ends in a heap when it starts from a state satisfying `sift_inv`. -/
theorem sift_up_loop_is_heap (hswo : StrictWeakOrder compare) (a : List α) (m c : Nat)
    (hc : c < a.length) (h : sift_inv compare a m c) :
    is_heap compare (sift_up_loop compare a c) m := by
  induction c using Nat.strong_induction_on generalizing a with
  | _ c ih =>
    obtain ⟨U1, U2⟩ := h
    cases hn : is_needed compare a c with
    | false =>
      rw [sift_up_loop_stop _ _ _ hn]
      intro i hi hi0
      by_cases hic : i = c
      · subst hic
        rcases (is_needed_eq_false_iff compare a i).1 hn with h0 | hlt
        · omega
        · exact hswo.asymm hlt
      · exact U1 i hi hi0 hic
    | true =>
      obtain ⟨hc0, hv⟩ := (is_needed_eq_true_iff compare a c).1 hn
      have hp := parent_lt (Nat.pos_of_ne_zero hc0)
      have hpl : parent c < a.length := by omega
      rw [sift_up_loop_step _ _ _ hn]
      apply ih (parent c) hp _ (by rw [length_swap]; exact hpl)
      refine ⟨?_, ?_⟩
      · intro i hi hi0 hip
        by_cases hic : i = c
        · subst hic
          rw [deref_swap_right a (parent i) i hc, deref_swap_left a (parent i) i hpl hc]
          exact hv
        · rw [deref_swap_other a (parent c) c i hip hic]
          by_cases hpc : parent i = c
          · rw [hpc, deref_swap_right a (parent c) c hc]
            exact U2 (Nat.pos_of_ne_zero hc0) i hi hi0 hpc
          · by_cases hpp : parent i = parent c
            · rw [hpp, deref_swap_left a (parent c) c hpl hc]
              have := U1 i hi hi0 hic
              rw [hpp] at this
              exact hswo.not_lt_trans this hv
            · rw [deref_swap_other a (parent c) c (parent i) hpp hpc]
              exact U1 i hi hi0 hic
      · intro hp0 i hi hi0 hpi
        have hpp := parent_lt hp0
        have hil := parent_lt hi0
        rw [deref_swap_other a (parent c) c (parent (parent c)) (by omega) (by omega)]
        have hpar := U1 (parent c) (by omega) hp0 (by omega)
        by_cases hic : i = c
        · subst hic
          rw [deref_swap_right a (parent i) i hc]
          exact hpar
        · rw [deref_swap_other a (parent c) c i (by omega) hic]
          have := U1 i hi hi0 hic
          rw [hpi] at this
          exact hswo.not_lt_trans this hpar

theorem is_heap_take (compare : α → α → Bool) (a : List α) (m : Nat)
    (h : is_heap compare a m) : is_heap compare (a.take m) m := by
  intro i hi hi0
  have := parent_lt hi0
  rw [deref_take a m i hi, deref_take a m (parent i) (by omega)]
  exact h i hi hi0

/-- Removal by position keeps the heap property, whatever the removed position and whether the
element that takes its place has to move up or down. -/
theorem remove_at_heap_valid (q : PriorityQueue α) (pos : Nat)
    (hswo : StrictWeakOrder q._compare) (hheap : q.heap_valid) (hpos : pos < q._seq.length) :
    (q.remove_at pos).heap_valid := by
  unfold heap_valid
  rw [remove_at_length]
  have hl1 := length_swap q._seq pos (q._seq.length - 1)
  have hedge : ∀ i, i < q._seq.length - 1 → 0 < i → i ≠ pos → parent i ≠ pos →
      q._compare (deref (swap q._seq pos (q._seq.length - 1)) i)
        (deref (swap q._seq pos (q._seq.length - 1)) (parent i)) = false := by
    intro i hi hi0 hip hpp
    have := parent_lt hi0
    rw [deref_swap_other _ _ _ i hip (by omega),
      deref_swap_other _ _ _ (parent i) hpp (by omega)]
    exact hheap i (by omega) hi0
  have hgrand : 0 < pos → ∀ i, i < q._seq.length - 1 → 0 < i → parent i = pos →
      q._compare (deref (swap q._seq pos (q._seq.length - 1)) i)
        (deref (swap q._seq pos (q._seq.length - 1)) (parent pos)) = false := by
    intro hp0 i hi hi0 hpi
    have h1 := parent_lt hi0
    have h2 := parent_lt hp0
    rw [deref_swap_other _ _ _ i (by omega) (by omega),
      deref_swap_other _ _ _ (parent pos) (by omega) (by omega)]
    have e1 := hheap i (by omega) hi0
    rw [hpi] at e1
    exact hswo.not_lt_trans e1 (hheap pos hpos hp0)
  have key : is_heap q._compare
      (if !(sift_up q._compare (swap q._seq pos (q._seq.length - 1)) pos).1 then
        heapify q._compare (sift_up q._compare (swap q._seq pos (q._seq.length - 1)) pos).2
          ((sift_up q._compare (swap q._seq pos (q._seq.length - 1)) pos).2.length - 1) pos
      else (sift_up q._compare (swap q._seq pos (q._seq.length - 1)) pos).2)
      (q._seq.length - 1) := by
    rw [sift_up_fst, sift_up_snd, sift_up_loop_length, hl1]
    cases hn : is_needed q._compare (swap q._seq pos (q._seq.length - 1)) pos with
    | true =>
      simp only [Bool.not_true, Bool.false_eq_true, if_false]
      obtain ⟨hp0, hv⟩ := (is_needed_eq_true_iff _ _ _).1 hn
      apply sift_up_loop_is_heap hswo _ _ _ (by rw [hl1]; exact hpos)
      refine ⟨?_, hgrand⟩
      intro i hi hi0 hip
      by_cases hpp : parent i = pos
      · have hg := hgrand (Nat.pos_of_ne_zero hp0) i hi hi0 hpp
        rw [hpp]
        exact hswo.not_lt_trans hg hv
      · exact hedge i hi hi0 hip hpp
    | false =>
      simp only [Bool.not_false, if_true]
      rw [sift_up_loop_stop _ _ _ hn]
      apply heapify_is_heap hswo _ _ _ (by rw [hl1]; omega)
      refine ⟨?_, hgrand⟩
      intro i hi hi0 hpp
      by_cases hip : i = pos
      · subst hip
        rcases (is_needed_eq_false_iff _ _ _).1 hn with h0 | hlt
        · omega
        · exact hswo.asymm hlt
      · exact hedge i hi hi0 hip hpp
  have hseq : (q.remove_at pos)._seq
      = (if !(sift_up q._compare (swap q._seq pos (q._seq.length - 1)) pos).1 then
        heapify q._compare (sift_up q._compare (swap q._seq pos (q._seq.length - 1)) pos).2
          ((sift_up q._compare (swap q._seq pos (q._seq.length - 1)) pos).2.length - 1) pos
      else (sift_up q._compare (swap q._seq pos (q._seq.length - 1)) pos).2).take
        (q._seq.length - 1) := by
    unfold remove_at
    simp only
    split
    · rw [resize_pred, heapify_length, sift_up_length, hl1]
    · rw [resize_pred, sift_up_length, hl1]
  have hcmp : (q.remove_at pos)._compare = q._compare := rfl
  rw [hseq, hcmp]
  exact is_heap_take _ _ _ key

theorem remove_heap_valid [BEq α] (q : PriorityQueue α) (v : α)
    (hswo : StrictWeakOrder q._compare) (hheap : q.heap_valid) : (q.remove v).heap_valid := by
  by_cases h : ∃ x ∈ q._seq, (x == v) = true
  · rw [remove_of_found q v h]
    exact remove_at_heap_valid q _ hswo hheap ((find_lt_length_iff q._seq v).2 h)
  · have hnone : ∀ x ∈ q._seq, (x == v) = false := by
      intro x hx
      cases hxv : (x == v) with
      | false => rfl
      | true => exact absurd ⟨x, hx, hxv⟩ h
    rw [remove_of_not_found q v hnone]
    exact hheap

theorem remove_compare [BEq α] (q : PriorityQueue α) (v : α) :
    (q.remove v)._compare = q._compare := by
  unfold remove
  simp only
  split <;> rfl

theorem substitute_heap_valid [BEq α] (q : PriorityQueue α) (old_value new_value : α)
    (hswo : StrictWeakOrder q._compare) (hheap : q.heap_valid) :
    (q.substitute old_value new_value).heap_valid := by
  unfold substitute
  exact push_heap_valid _ _ (by rw [remove_compare]; exact hswo)
    (remove_heap_valid q old_value hswo hheap)

theorem update_with_if_heap_valid [BEq α] (q : PriorityQueue α) (new_value : α)
    (predicate : α → Bool) (hswo : StrictWeakOrder q._compare) (hheap : q.heap_valid) :
    (q.update_with_if new_value predicate).heap_valid := by
  unfold update_with_if
  simp only
  split
  · exact substitute_heap_valid q _ _ hswo hheap
  · exact hheap

theorem update_with_if_compare [BEq α] (q : PriorityQueue α) (new_value : α)
    (predicate : α → Bool) : (q.update_with_if new_value predicate)._compare = q._compare := by
  unfold update_with_if substitute
  simp only
  split
  · rw [push_compare, remove_compare]
  · rfl

/-- Every reachable queue has a strict-weak-order comparator and satisfies the heap property. -/
theorem reachable_invariant [BEq α] (q : PriorityQueue α) (h : Reachable q) :
    StrictWeakOrder q._compare ∧ q.heap_valid := by
  induction h with
  | mk_empty c hc => exact ⟨hc, heap_valid_mk_empty c⟩
  | push q v _ ih => exact ⟨ih.1, push_heap_valid q v ih.1 ih.2⟩
  | pop q _ ih => exact ⟨by rw [pop_compare]; exact ih.1, pop_heap_valid q ih.1 ih.2⟩
  | remove q v _ ih =>
    exact ⟨by rw [remove_compare]; exact ih.1, remove_heap_valid q v ih.1 ih.2⟩
  | substitute q o n _ ih =>
    refine ⟨?_, substitute_heap_valid q o n ih.1 ih.2⟩
    unfold PriorityQueue.substitute
    rw [push_compare, remove_compare]
    exact ih.1
  | update_with_if q n p _ ih =>
    exact ⟨by rw [update_with_if_compare]; exact ih.1,
      update_with_if_heap_valid q n p ih.1 ih.2⟩
  | reset q _ ih => exact ⟨ih.1, heap_valid_mk_empty q._compare⟩
  | reset_with q c hc _ _ => exact ⟨hc, heap_valid_mk_empty c⟩

/-- C13: under strict-weak-order comparators, every queue reachable from an empty queue by any
sequence of `push`, `pop`, `remove`, `substitute`, `update_with_if` and `reset` (with or without
a new comparator) satisfies the heap property; and on such a queue removal by position at any
stored position yields a queue that satisfies the heap property, whether the tail element that
takes the place of the removed one has to move up or down. -/
theorem C13_heap_invariant [BEq α] (q : PriorityQueue α) (h : Reachable q) :
    q.heap_valid ∧ ∀ pos, pos < q.size → (q.remove_at pos).heap_valid := by
  obtain ⟨hswo, hheap⟩ := reachable_invariant q h
  exact ⟨hheap, fun pos hpos => remove_at_heap_valid q pos hswo hheap hpos⟩

theorem C13_heap_invariant_witness :
    Reachable ((((mk_empty nat_lt).push 3).push 1).substitute 3 2) ∧
    ((((mk_empty nat_lt).push 3).push 1).substitute 3 2).heap_valid ∧
    ∀ pos, pos < ((((mk_empty nat_lt).push 3).push 1).substitute 3 2).size →
      (((((mk_empty nat_lt).push 3).push 1).substitute 3 2).remove_at pos).heap_valid :=
  have hr : Reachable ((((mk_empty nat_lt).push 3).push 1).substitute 3 2) :=
    Reachable.substitute _ 3 2
      (Reachable.push _ 1 (Reachable.push _ 3 (Reachable.mk_empty nat_lt nat_lt_swo)))
  ⟨hr, C13_heap_invariant _ hr⟩

end removal

/-! ## Arguments passed by reference -/

section by_reference

open PriorityQueue

theorem readable_outside (v : α) (n capacity : Nat) :
    (Binding.outside v).readable n capacity = true := rfl

theorem readable_front_iff (n capacity : Nat) :
    (Binding.front : Binding α).readable n capacity = true ↔ 0 < n ∧ n + 1 ≤ capacity := by
  unfold Binding.readable
  simp

variable [Inhabited α]

theorem push_loop_ref_stop (compare : α → α → Bool) (b : Binding α) (a : List α) (curr : Nat)
    (h : ¬ (curr > 0 ∧ compare (b.read a) (deref a (parent curr)) = true)) :
    push_loop_ref compare b a curr = (a, curr) := by
  rw [push_loop_ref]
  simp only [h, if_false]

theorem push_loop_ref_step (compare : α → α → Bool) (b : Binding α) (a : List α) (curr : Nat)
    (h : curr > 0 ∧ compare (b.read a) (deref a (parent curr)) = true) :
    push_loop_ref compare b a curr
      = push_loop_ref compare b (a.set curr (deref a (parent curr))) (parent curr) := by
  rw [push_loop_ref]
  simp only [h, and_self, if_true]

/-- The loop of `push` never writes the front position. -/
theorem push_loop_front (compare : α → α → Bool) (v : α) (a : List α) (curr : Nat) :
    deref (push_loop compare v a curr).1 0 = deref a 0 := by
  induction curr using Nat.strong_induction_on generalizing a with
  | _ curr ih =>
    by_cases h : curr > 0 ∧ compare v (deref a (parent curr)) = true
    · rw [push_loop_step _ _ _ _ h, ih (parent curr) (parent_lt h.1),
        deref_set_ne a curr 0 _ (by omega)]
    · rw [push_loop_stop _ _ _ _ h]

/-- Reading `new_val` through a reference bound outside the vector is reading a fixed value. -/
theorem push_loop_ref_outside (compare : α → α → Bool) (v : α) (a : List α) (curr : Nat) :
    push_loop_ref compare (Binding.outside v) a curr = push_loop compare v a curr := by
  induction curr using Nat.strong_induction_on generalizing a with
  | _ curr ih =>
    by_cases h : curr > 0 ∧ compare v (deref a (parent curr)) = true
    · rw [push_loop_ref_step _ _ _ _ h, push_loop_step _ _ _ _ h]
      exact ih (parent curr) (parent_lt h.1) _
    · rw [push_loop_ref_stop _ _ _ _ h, push_loop_stop _ _ _ _ h]

/-- Reading `new_val` through a reference bound to the front element is reading the value the
front had when the loop began: the loop never writes the front position. -/
theorem push_loop_ref_front (compare : α → α → Bool) (a : List α) (curr : Nat) :
    push_loop_ref compare Binding.front a curr = push_loop compare (deref a 0) a curr := by
  induction curr using Nat.strong_induction_on generalizing a with
  | _ curr ih =>
    by_cases h : curr > 0 ∧ compare (deref a 0) (deref a (parent curr)) = true
    · rw [push_loop_ref_step compare Binding.front a curr h, push_loop_step _ _ _ _ h,
        ih (parent curr) (parent_lt h.1), deref_set_ne a curr 0 _ (by omega)]
    · rw [push_loop_ref_stop compare Binding.front a curr h, push_loop_stop _ _ _ _ h]

/-- A call of `push` whose argument can still be read after the `resize` does what `push` does
with the value the argument has at the call. -/
theorem push_ref_of_readable (q : PriorityQueue α) (b : Binding α) (capacity : Nat)
    (h : b.readable q.size capacity = true) :
    q.push_ref b capacity = some (q.push (b.read q._seq)) := by
  unfold push_ref push
  rw [if_pos h]
  cases b with
  | outside v =>
    simp only [push_loop_ref_outside, Binding.read]
  | front =>
    have hpos : 0 < q._seq.length := ((readable_front_iff q.size capacity).1 h).1
    have h0 : deref (resize q._seq (q.size + 1)) 0 = deref q._seq 0 := by
      unfold size
      rw [resize_succ, deref_append_left _ _ 0 hpos]
    simp only [push_loop_ref_front, Binding.read, push_loop_front, h0]

theorem push_ref_of_not_readable (q : PriorityQueue α) (b : Binding α) (capacity : Nat)
    (h : b.readable q.size capacity = false) : q.push_ref b capacity = none := by
  unfold push_ref
  rw [h]
  rfl

/-- C5: the call `q.push(q.top())` on the queue that holds the single value `5` in a vector
without spare capacity (capacity `1`, which is what the usual implementations give a vector
grown from empty by `resize(1)`; a full vector can be reached on any of them).  `top()` is `5`,
the `resize(2)` inside `push` reallocates, and the reference is read afterwards: the outcome is
undefined, so it is not a queue that contains `5`, has size `2` and stores `5, 5`. -/
theorem C5_push_of_top_without_spare_capacity :
    ((mk_empty nat_lt).push 5)._seq = [5] ∧ ((mk_empty nat_lt).push 5).top = some 5 ∧
    (Binding.front : Binding Nat).read ((mk_empty nat_lt).push 5)._seq = 5 ∧
    ((mk_empty nat_lt).push 5).push_ref Binding.front 1 = none ∧
    ¬ ∃ q1, ((mk_empty nat_lt).push 5).push_ref Binding.front 1 = some q1 ∧
      q1.contains 5 = true ∧ q1.size = ((mk_empty nat_lt).push 5).size + 1 ∧
      List.Perm q1._seq (5 :: ((mk_empty nat_lt).push 5)._seq) := by
  have hnone : ((mk_empty nat_lt).push 5).push_ref Binding.front 1 = none :=
    push_ref_of_not_readable _ _ _ (by decide)
  refine ⟨by decide, by decide, by decide, hnone, ?_⟩
  rintro ⟨q1, h, _⟩
  rw [hnone] at h
  cases h

/-- C5: after a call of `push` on any queue whose argument can still be read after the
`resize`, that is, an argument bound to an object outside the stored sequence, or bound to the
front element (`q.push(q.top())`) of a non-empty queue with spare capacity, the call succeeds,
`contains v` is true for the value `v` the argument had at the call (equality by value being
reflexive), the size has grown by exactly one, and the stored values are the previous ones plus
one occurrence of `v`. -/
theorem C5_push_adds_exactly_one [BEq α] (q : PriorityQueue α) (new_val : Binding α)
    (capacity : Nat) (hrefl : ∀ x : α, (x == x) = true)
    (hread : new_val.readable q.size capacity = true) :
    ∃ q1, q.push_ref new_val capacity = some q1 ∧
      q1.contains (new_val.read q._seq) = true ∧ q1.size = q.size + 1 ∧
      List.Perm q1._seq (new_val.read q._seq :: q._seq) := by
  refine ⟨q.push (new_val.read q._seq), push_ref_of_readable q new_val capacity hread, ?_⟩
  exact ⟨push_contains q _ hrefl, push_length q _, push_perm q _⟩

theorem C5_push_adds_exactly_one_witness :
    (∀ x : Nat, (x == x) = true) ∧
    (Binding.front : Binding Nat).readable (PriorityQueue.mk [3, 5, 4] nat_lt).size 4 = true ∧
    ∃ q1, (PriorityQueue.mk [3, 5, 4] nat_lt).push_ref Binding.front 4 = some q1 ∧
      q1.contains ((Binding.front : Binding Nat).read (PriorityQueue.mk [3, 5, 4] nat_lt)._seq)
        = true ∧
      q1.size = (PriorityQueue.mk [3, 5, 4] nat_lt).size + 1 ∧
      List.Perm q1._seq
        ((Binding.front : Binding Nat).read (PriorityQueue.mk [3, 5, 4] nat_lt)._seq ::
          (PriorityQueue.mk [3, 5, 4] nat_lt)._seq) :=
  ⟨fun x => beq_self_eq_true x, by decide,
    C5_push_adds_exactly_one (PriorityQueue.mk [3, 5, 4] nat_lt) Binding.front 4
      (fun x => beq_self_eq_true x) (by decide)⟩

/-- C9: the call `q.substitute(1, q.top())` on the queue built by `push 1`, `push 3`, `push 2`,
with capacity `3` or more.  The queue stores `1, 3, 2`, so `top()` is `1` and `contains 1`
holds; after `remove` the front element is `2`, and that is what `push` reads through the
reference: the queue ends as `2, 3, 2`, which does not contain the value `1` that was passed
as `new`. -/
theorem C9_substitute_of_top_pushes_new_front :
    ((((mk_empty nat_lt).push 1).push 3).push 2)._seq = [1, 3, 2] ∧
    (Binding.front : Binding Nat).read ((((mk_empty nat_lt).push 1).push 3).push 2)._seq = 1 ∧
    ((((mk_empty nat_lt).push 1).push 3).push 2).contains 1 = true ∧
    (((((mk_empty nat_lt).push 1).push 3).push 2).substitute_ref 1 Binding.front 3).map
      (fun q1 => q1._seq) = some [2, 3, 2] ∧
    (((((mk_empty nat_lt).push 1).push 3).push 2).substitute_ref 1 Binding.front 3).map
      (fun q1 => q1.contains 1) = some false ∧
    (((((mk_empty nat_lt).push 1).push 3).push 2).substitute_ref 1 Binding.front 4).map
      (fun q1 => q1._seq) = some [2, 3, 2] := by
  decide

/-- C9: `substitute old new` is `remove old` followed by `push new` with the same reference
`new`.  Whenever `new` can be read when that `push` runs (it is bound outside the stored
sequence, or it is `q.top()`, an element is left after the removal and `push` does not
reallocate), the call succeeds and pushes the value `new` has after the removal; when nothing
stored equals `old` it yields the same queue as `push new` alone and the size grows by one;
when something stored equals `old` the size is unchanged and `contains` holds afterwards for
the value `new` has after the removal.  For a `new` bound outside the stored sequence that
value is the one passed, so `contains new` holds. -/
theorem C9_substitute_is_remove_then_push [BEq α] (q : PriorityQueue α) (old : α)
    (new_value : Binding α) (capacity : Nat) (hrefl : ∀ x : α, (x == x) = true)
    (hread : new_value.readable (q.remove old).size capacity = true) :
    q.substitute_ref old new_value capacity = (q.remove old).push_ref new_value capacity ∧
    ∃ q1, q.substitute_ref old new_value capacity = some q1 ∧
      q1 = (q.remove old).push (new_value.read (q.remove old)._seq) ∧
      (q.contains old = false →
        q.push_ref new_value capacity = some q1 ∧ q1 = q.push (new_value.read q._seq) ∧
        q1.size = q.size + 1) ∧
      (q.contains old = true →
        q1.size = q.size ∧ q1.contains (new_value.read (q.remove old)._seq) = true) ∧
      (∀ v, new_value = Binding.outside v →
        q1 = q.substitute old v ∧ (q.contains old = true → q1.contains v = true)) := by
  have hpush := push_ref_of_readable (q.remove old) new_value capacity hread
  refine ⟨rfl, (q.remove old).push (new_value.read (q.remove old)._seq), hpush, rfl, ?_, ?_, ?_⟩
  · intro h
    have hq := remove_of_not_found q old ((contains_eq_false_iff q old).1 h)
    rw [hq] at hpush ⊢
    exact ⟨hpush, rfl, push_length q _⟩
  · intro h
    have hl := remove_length_of_found q old ((contains_eq_true_iff q old).1 h)
    refine ⟨?_, push_contains (q.remove old) _ hrefl⟩
    unfold size
    rw [push_length]
    exact hl
  · intro v hv
    subst hv
    exact ⟨rfl, fun _ => push_contains (q.remove old) v hrefl⟩

theorem C9_substitute_is_remove_then_push_witness :
    (∀ x : Nat, (x == x) = true) ∧
    (Binding.front : Binding Nat).readable
      ((PriorityQueue.mk [1, 3, 2] nat_lt).remove 1).size 3 = true ∧
    ((PriorityQueue.mk [1, 3, 2] nat_lt).substitute_ref 1 Binding.front 3
      = ((PriorityQueue.mk [1, 3, 2] nat_lt).remove 1).push_ref Binding.front 3 ∧
    ∃ q1, (PriorityQueue.mk [1, 3, 2] nat_lt).substitute_ref 1 Binding.front 3 = some q1 ∧
      q1 = ((PriorityQueue.mk [1, 3, 2] nat_lt).remove 1).push
        ((Binding.front : Binding Nat).read ((PriorityQueue.mk [1, 3, 2] nat_lt).remove 1)._seq) ∧
      ((PriorityQueue.mk [1, 3, 2] nat_lt).contains 1 = false →
        (PriorityQueue.mk [1, 3, 2] nat_lt).push_ref Binding.front 3 = some q1 ∧
        q1 = (PriorityQueue.mk [1, 3, 2] nat_lt).push
          ((Binding.front : Binding Nat).read (PriorityQueue.mk [1, 3, 2] nat_lt)._seq) ∧
        q1.size = (PriorityQueue.mk [1, 3, 2] nat_lt).size + 1) ∧
      ((PriorityQueue.mk [1, 3, 2] nat_lt).contains 1 = true →
        q1.size = (PriorityQueue.mk [1, 3, 2] nat_lt).size ∧
        q1.contains ((Binding.front : Binding Nat).read
          ((PriorityQueue.mk [1, 3, 2] nat_lt).remove 1)._seq) = true) ∧
      (∀ v, (Binding.front : Binding Nat) = Binding.outside v →
        q1 = (PriorityQueue.mk [1, 3, 2] nat_lt).substitute 1 v ∧
        ((PriorityQueue.mk [1, 3, 2] nat_lt).contains 1 = true → q1.contains v = true))) :=
  ⟨fun x => beq_self_eq_true x, by decide,
    C9_substitute_is_remove_then_push (PriorityQueue.mk [1, 3, 2] nat_lt) 1 Binding.front 3
      (fun x => beq_self_eq_true x) (by decide)⟩

end by_reference

end search
